import Mathlib

/-!
Verification development for the `next-token-prediction` repository.

The repository stores training data in nested JavaScript objects used as
tries (`Context.trie` in `src/models/Transformer/index.js`, `model` in
`src/components/Decoder/index.js`).  We embed those objects as association
lists with JavaScript object key semantics: a newly added key is appended
at the end, an existing key keeps its position and its value is updated in
place.  (JavaScript additionally fronts integer-like keys; no development
below depends on the order of keys, only on lengths and membership.)
-/

set_option maxHeartbeats 1000000

namespace NTP

/-- A JavaScript plain object used as a trie: nested mapping from token
strings to sub-objects, in key insertion order. -/
inductive Trie where
  | node : List (String × Trie) → Trie
deriving Repr

/-- The empty object `{}`. -/
def Trie.empty : Trie := .node []

/-- Children list of a trie node. -/
def Trie.children : Trie → List (String × Trie)
  | .node cs => cs

/-- Keys of a trie node, in object key order (`Object.keys`). -/
def Trie.keys (t : Trie) : List String := t.children.map (·.1)

/-- Property access `obj[k]`: the first binding of `k`, if any. -/
def findChild : List (String × Trie) → String → Option Trie
  | [], _ => none
  | (k', t) :: rest, k => if k' = k then some t else findChild rest k

mutual

/-- Number of nodes of a trie (used as recursion fuel for the merge). -/
def Trie.size : Trie → Nat
  | .node cs => 1 + sizeChildren cs

/-- Total number of nodes of a children list. -/
def sizeChildren : List (String × Trie) → Nat
  | [] => 0
  | (_, t) :: rest => t.size + sizeChildren rest

end

/-- Lodash `merge(dst, src)` on plain objects, fuelled by the size of the
source (one fuel unit per nesting level, so any fuel at least the size of
the source gives the untruncated merge): for each key of `src` in order, a
key absent from `dst` is appended, a key present in `dst` has the two
values merged recursively in place. -/
def mergeTrieF : Nat → Trie → Trie → Trie
  | 0, dst, _ => dst
  | fuel + 1, .node dst, .node src =>
      .node (src.foldl (fun acc kv =>
        let i := acc.findIdx (fun p => p.1 = kv.1)
        if h : i < acc.length then
          acc.set i (kv.1, mergeTrieF fuel (acc.get ⟨i, h⟩).2 kv.2)
        else acc ++ [kv]) dst)

/-- Lodash `merge(dst, src)` on plain objects (the fuelled merge at full
fuel). -/
def mergeTrie (dst src : Trie) : Trie := mergeTrieF src.size dst src

/-- Merging one source binding `(k, v)` into a children list, recursively:
update the first binding of `k` in place, or append `(k, v)` at the end.
This is the step function of `mergeTrieF`, in recursive form. -/
def insertChildF (fuel : Nat) : List (String × Trie) → String → Trie → List (String × Trie)
  | [], k, v => [(k, v)]
  | (kp, t) :: ds, k, v =>
      if kp = k then (k, mergeTrieF fuel t v) :: ds
      else (kp, t) :: insertChildF fuel ds k v

/-! ## JavaScript string primitives

The source manipulates strings with `split`, `trim`, `replace` and regular
expressions.  We embed these as functions on `List Char` (with `String`
wrappers), restricted to the character classes the source actually uses;
`\s` is modelled by the ASCII whitespace characters JavaScript includes in
`\s`, and case conversion by ASCII case conversion. -/

/-- JavaScript `\s` (ASCII part): space, tab, newline, carriage return,
vertical tab, form feed. -/
def isJsSpace (c : Char) : Bool :=
  c = ' ' || c = '\t' || c = '\n' || c = '\r' || c = Char.ofNat 11 || c = Char.ofNat 12

/-- `String.prototype.trim`, on the character list. -/
def jsTrimL (l : List Char) : List Char :=
  ((l.dropWhile isJsSpace).reverse.dropWhile isJsSpace).reverse

/-- `String.prototype.trim`. -/
def jsTrim (s : String) : String := String.mk (jsTrimL s.data)

/-- `str.split(sep)` for a single-character separator: JavaScript returns
`[""]` on the empty string and keeps empty pieces. -/
def splitCh (sep : Char) : List Char → List (List Char)
  | [] => [[]]
  | c :: rest =>
      if c = sep then [] :: splitCh sep rest
      else
        match splitCh sep rest with
        | t :: ts => (c :: t) :: ts
        | [] => [[c]]

/-- `parts.join(sep)` for a single-character separator. -/
def joinCh (sep : Char) : List (List Char) → List Char
  | [] => []
  | [t] => t
  | t :: ts => t ++ sep :: joinCh sep ts

/-- `str.split(' ')` (also `str.split(/ /)`), producing strings. -/
def strSplitSp (s : String) : List String := (splitCh ' ' s.data).map String.mk

/-- `tokens.join` with a single-space separator. -/
def joinSp (ts : List String) : String := String.mk (joinCh ' ' (ts.map String.data))

/-- `text.replace(text.charAt(0), text.charAt(0).toUpperCase())`: the first
occurrence of the first character is the first character itself, so this
uppercases position 0 (ASCII case conversion). -/
def jsCapFirst (s : String) : String :=
  match s.data with
  | [] => s
  | c :: cs => String.mk (c.toUpper :: cs)

/-- `str.replace(/\\n/g, r)`: replaces every occurrence of the two-character
sequence backslash-`n` (not the newline character) with `r`. -/
def replBackslashN (r : List Char) : List Char → List Char
  | '\\' :: 'n' :: rest => r ++ replBackslashN r rest
  | c :: rest => c :: replBackslashN r rest
  | [] => []

/-- `[...new Set(xs)]`, with the set of already-seen elements explicit: a
`Set` keeps the first occurrence of each element, in insertion order. -/
def dedupAux {α : Type} [DecidableEq α] (seen : List α) : List α → List α
  | [] => []
  | x :: xs =>
      if seen.contains x then dedupAux seen xs
      else x :: dedupAux (seen ++ [x]) xs

/-- `[...new Set(xs)]`: deduplication preserving first-occurrence order. -/
def dedupFirst {α : Type} [DecidableEq α] (l : List α) : List α := dedupAux [] l

/-- `list.slice(-n)`: the last `n` elements (all of them when shorter). -/
def sliceLast {α : Type} (n : Nat) (l : List α) : List α := l.drop (l.length - n)

/-- ASCII lowercase letter. -/
def isAsciiLower (c : Char) : Bool := 'a' ≤ c && c ≤ 'z'

/-- ASCII uppercase letter (the `[A-Z]` class; also stands in for the
`\p{Lu}` class, which coincides with it on ASCII input). -/
def isAsciiUpper (c : Char) : Bool := 'A' ≤ c && c ≤ 'Z'

/-- ASCII alphanumeric (`[a-zA-Z0-9]`). -/
def isAsciiAlnum (c : Char) : Bool :=
  isAsciiLower c || isAsciiUpper c || ('0' ≤ c && c ≤ '9')

/-! ## Character classes of the source regexes -/

/-- The `MATCH_PUNCTUATION` class
`[.,\/#!$%?“”\^&\*;:{}=\_`~()]` (both `Transformer` and `Decoder`). -/
def isPunctMark (c : Char) : Bool :=
  c = '.' || c = ',' || c = '/' || c = '#' || c = '!' || c = '$' || c = '%' ||
  c = '?' || c = '“' || c = '”' || c = '^' || c = '&' || c = '*' || c = ';' ||
  c = ':' || c = Char.ofNat 123 || c = Char.ofNat 125 || c = '=' || c = '_' ||
  c = Char.ofNat 96 || c = '~' || c = '(' || c = ')'

/-- The class `[\p{P}$+<=>^`(\\\n)|~]` of `utils.js` `tokenize`.  `\p{P}` is
modelled by its ASCII part together with the non-ASCII punctuation marks the
source’s other constants mention (`“ ” … –`). -/
def isTokClass (c : Char) : Bool :=
  -- ASCII \p{P}
  c = '!' || c = Char.ofNat 34 || c = '#' || c = '%' || c = '&' ||
  c = Char.ofNat 39 || c = '(' || c = ')' || c = '*' || c = ',' || c = '-' ||
  c = '.' || c = '/' || c = ':' || c = ';' || c = '?' || c = '@' || c = '[' ||
  c = '\\' || c = ']' || c = '_' || c = Char.ofNat 123 || c = Char.ofNat 125 ||
  -- non-ASCII \p{P} used elsewhere in the source
  c = '“' || c = '”' || c = '…' || c = '–' ||
  -- the explicit extra members of the class
  c = '$' || c = '+' || c = '<' || c = '=' || c = '>' || c = '^' ||
  c = Char.ofNat 96 || c = '\n' || c = '|' || c = '~'

/-! ## Tokenizer (`utils.js` `tokenize`) -/

/-- The per-character action of `tokenize`'s replacement: a character of the
class becomes a space, any other character is kept. -/
def tokRepl (c : Char) : Char := if isTokClass c then ' ' else c

/-- `tokenize` of `utils.js`: trim, replace every character of the class by a
space, split on single spaces. -/
def tokenizeJS (s : String) : List String :=
  (splitCh ' ' ((jsTrimL s.data).map (fun c => if isTokClass c then ' ' else c))).map
    String.mk

/-! ## `toPlainText` (`src/models/Transformer/index.js`)

`toPlainText` chains eight `String.replace` calls; each is embedded as a
scan over the character list performing the same leftmost, non-overlapping,
global rewriting as the corresponding regex. -/

/-- Step 2, `MATCH_LOWER_UPPER` = `/([a-z])([A-Z])/g` replaced by `'$1 $2'`:
insert a space inside every (non-overlapping) lowercase–uppercase pair. -/
def splitLU : List Char → List Char
  | [] => []
  | [c] => [c]
  | a :: b :: rest =>
      if isAsciiLower a && isAsciiUpper b then a :: ' ' :: b :: splitLU rest
      else a :: splitLU (b :: rest)

/-- Step 3, `MATCH_NEW_LINES` = `/\n/g` replaced by a space. -/
def replNL (l : List Char) : List Char :=
  l.map (fun c => if c = '\n' then ' ' else c)

/-- Step 4, `FORMAT_PLAIN_TEXT[0]` = `/\.\s+|\n|\r|\0/mg` replaced by a
space, as a one-character-at-a-time scan whose Boolean state records that
the whitespace run of a matched `\.\s+` is still being consumed: a dot
followed by a whitespace run collapses with the run to one space; stray
`\n`, `\r`, `\0` become spaces. -/
def fmt0m : Bool → List Char → List Char
  | _, [] => []
  | skipping, c :: rest =>
      if skipping && isJsSpace c then fmt0m true rest
      else if c = '.' && (rest.head?.map isJsSpace).getD false then ' ' :: fmt0m true rest
      else if c = '\n' || c = '\r' || c = Char.ofNat 0 then ' ' :: fmt0m false rest
      else c :: fmt0m false rest

/-- Step 4 at its initial state. -/
def fmt0 (l : List Char) : List Char := fmt0m false l

/-- Step 5, `FORMAT_PLAIN_TEXT[1]` = `/\s-+\s/mg` replaced by a space
(whitespace, one or more dashes, whitespace), as a scan whose counter
records how many already-matched characters remain to be consumed. -/
def fmt1m : Nat → List Char → List Char
  | _, [] => []
  | n + 1, _ :: rest => fmt1m n rest
  | 0, c :: rest =>
      if isJsSpace c then
        let ds := rest.takeWhile (fun d => d = '-')
        if ds.length ≠ 0 && ((rest.drop ds.length).head?.map isJsSpace).getD false then
          ' ' :: fmt1m (ds.length + 1) rest
        else c :: fmt1m 0 rest
      else c :: fmt1m 0 rest

/-- Step 5 at its initial state. -/
def fmt1 (l : List Char) : List Char := fmt1m 0 l

/-- Step 6, `FORMAT_PLAIN_TEXT[2]` = `/[©|]\s?/mg` replaced by a space: a
`©` or `|`, together with at most one following whitespace character. -/
def fmt2 : List Char → List Char
  | [] => []
  | c :: rest =>
      if c = '©' || c = '|' then
        match rest with
        | d :: rest2 => if isJsSpace d then ' ' :: fmt2 rest2 else ' ' :: fmt2 (d :: rest2)
        | [] => [' ']
      else c :: fmt2 rest

/-- Step 7, `FORMAT_PLAIN_TEXT[3]` = `/[!(–?$”“…]/mg` replaced by a space. -/
def fmt3 (l : List Char) : List Char :=
  l.map (fun c =>
    if c = '!' || c = '(' || c = '–' || c = '?' || c = '$' || c = '”' || c = '“' ||
        c = '…' then ' '
    else c)

/-- Runs of two or more whitespace characters collapse to one space (the
`\s{2,}` alternative of `FORMAT_PLAIN_TEXT[4]`, away from the start), as a
scan whose Boolean state records that a matched run is still being
consumed.  An isolated whitespace character is kept verbatim. -/
def collWSm : Bool → List Char → List Char
  | _, [] => []
  | skipping, c :: rest =>
      if skipping && isJsSpace c then collWSm true rest
      else if isJsSpace c && (rest.head?.map isJsSpace).getD false then
        ' ' :: collWSm true rest
      else c :: collWSm false rest

/-- Step 8, `FORMAT_PLAIN_TEXT[4]` = `/\s{2,}|^\s/mg` replaced by a space
(by this stage the earlier steps have removed every newline, so `^` only
matches the start of the string): a leading single whitespace character is
replaced by a space, and every whitespace run of length at least two
collapses to one space. -/
def fmt4 : List Char → List Char
  | [] => []
  | c :: rest =>
      if isJsSpace c && (rest.head?.map isJsSpace).getD false then
        ' ' :: collWSm true rest
      else if isJsSpace c then ' ' :: collWSm false rest
      else c :: collWSm false rest

/-- `toPlainText` of `src/models/Transformer/index.js`: capitalize the first
character, split lowercase–uppercase pairs, then apply the
`FORMAT_PLAIN_TEXT` pipeline. -/
def toPlainTextJS (s : String) : String :=
  String.mk (fmt4 (fmt3 (fmt2 (fmt1 (fmt0 (replNL (splitLU (jsCapFirst s).data)))))))

/-! ## Context creation (`src/models/Transformer/index.js` `createContext`)

The model fixes the default environment configuration of the source
(`PARAMETER_CHUNK_SIZE = 50000`, `RANKING_BATCH_SIZE = 50`,
`MAX_RESPONSE_LENGTH = 240`, `VARIANCE = 0`). -/

/-- `MATCH_TERMINATORS` = `/([.?!])\s*(?=[A-Z])/g` replaced by `'$1|'`: a
terminator whose following whitespace run is followed by an ASCII uppercase
letter keeps the terminator, drops the run, and inserts `|`; the lookahead
is not consumed. -/
def replTermM : Nat → List Char → List Char
  | _, [] => []
  | n + 1, _ :: rest => replTermM n rest
  | 0, c :: rest =>
      if c = '.' || c = '?' || c = '!' then
        let ws := rest.takeWhile isJsSpace
        if ((rest.drop ws.length).head?.map isAsciiUpper).getD false then
          c :: '|' :: replTermM ws.length rest
        else c :: replTermM 0 rest
      else c :: replTermM 0 rest

/-- `MATCH_TERMINATORS` replacement at its initial state. -/
def replTerm (l : List Char) : List Char := replTermM 0 l

/-- `Context.sequences`: newlines to spaces, terminators to `|`, split on
`|`, then `toPlainText` on each sequence. -/
def textToSequences (text : String) : List String :=
  ((splitCh '|' (replTerm (replNL text.data))).map String.mk).map toPlainTextJS

/-- The linear chain `{w1: {w2: ... {wn: {}}}}` a sequence's `words.reduce`
builds in `createContext`. -/
def chainOf : List String → Trie
  | [] => Trie.empty
  | w :: ws => .node [(w, chainOf ws)]

/-- `chunkArray(array, PARAMETER_CHUNK_SIZE)` with the default chunk size
50000. -/
def chunkListF {α : Type} : Nat → List α → List (List α)
  | _, [] => []
  | 0, l => [l]
  | fuel + 1, x :: xs => ((x :: xs).take 50000) :: chunkListF fuel ((x :: xs).drop 50000)

/-- `chunkArray` at full fuel (each chunk consumes at least one element, so
the length of the list is always enough fuel). -/
def chunkList {α : Type} (l : List α) : List (List α) := chunkListF l.length l

/-- `createContext`, restricted to its effect on `Context.trie`: split the
training text into plain-text sequences, build each sequence's chain, and
deep-merge every chain into the PREVIOUS value of `Context.trie` (the
source merges into `Context.trie` without clearing it first, chunk by
chunk). -/
def createContextTrie (prev : Trie) (text : String) : Trie :=
  let ngrams := (textToSequences text).map (fun sq => chainOf (strSplitSp sq))
  (chunkList ngrams).foldl (fun t chunk => chunk.foldl mergeTrie t) prev

/-! ## Transformer prediction engine (`src/models/Transformer/index.js`) -/

/-- `ngramSearch`: split the input on spaces and walk the trie one level
per token (`input.split(/ /).reduce((a, b) => a?.[b], Context.trie) || {}`). -/
def ngramSearch (t : Trie) (input : String) : Trie :=
  ((strSplitSp input).foldl
    (fun a b => a.bind (fun x => findChild x.children b)) (some t)).getD Trie.empty

/-- `MISSING_NGRAM_ERROR`. -/
def missingNgramError : String := "Failed to look up n-gram."

/-- `RANKING_BATCH_SIZE` (default). -/
def rankingBatchSize : Nat := 50

/-- `MAX_RESPONSE_LENGTH` (default). -/
def maxResponseLength : Nat := 240

/-- Result record of the Transformer's `getTokenPrediction`; `error := none`
models the absence of an `error` field. -/
structure TPred where
  error : Option String
  token : String
  rankedTokenList : List String
deriving Repr, DecidableEq

/-- The Transformer's `getTokenPrediction` under the default configuration
(`VARIANCE = 0`, so the `getSimilarToken` branch is never taken): a falsy
(empty) token short-circuits; otherwise the capitalized token's n-gram
node's keys are ranked, the LAST key is the prediction (when truthy), and
the ranked list is its last 50 keys; a missing or falsy
last key yields the missing-n-gram error result. -/
def getTokenPredictionT (tr : Trie) (token : String) : TPred :=
  if token = "" then { error := none, token := "", rankedTokenList := [] }
  else
    let rankedTokens := (ngramSearch tr (jsCapFirst token)).keys
    let highestRankedToken := (rankedTokens.getLast?).getD ""
    if highestRankedToken ≠ "" then
      { error := none, token := highestRankedToken,
        rankedTokenList := sliceLast rankingBatchSize rankedTokens }
    else
      { error := some missingNgramError, token := "", rankedTokenList := [] }

/-- The `for (let i = 0; i < sequenceLength; i++)` loop of the Transformer's
`getTokenSequencePrediction`, with a ghost counter recording how many times
`getTokenPrediction` is called: each iteration calls it exactly once on the
growing result, and appends the sanitized prediction (backslash-`n`
sequences to spaces, trimmed) when it is truthy. -/
def seqLoopT (tr : Trie) : Nat → String → List String → Nat → String × List String × Nat
  | 0, result, seq, calls => (result, seq, calls)
  | n + 1, result, seq, calls =>
      let prediction := (getTokenPredictionT tr result).token
      if prediction ≠ "" then
        let sanitized := jsTrim (String.mk (replBackslashN [' '] prediction.data))
        seqLoopT tr n (result ++ " " ++ sanitized) (seq ++ [sanitized]) (calls + 1)
      else seqLoopT tr n result seq (calls + 1)

/-- Result record of `getTokenSequencePrediction`; `token` models
`sequence[0]` (`none` when the array is empty, i.e. `undefined`). -/
structure SeqPredT where
  completion : String
  sequenceLength : Nat
  token : Option String
  rankedTokenList : List String
deriving Repr, DecidableEq

/-- The Transformer's `getTokenSequencePrediction`: take the top-k sample of
the input, run the loop `sequenceLength` times, then deduplicate the
accumulated tokens, join with spaces and trim. -/
def getTokenSequencePredictionT (tr : Trie) (input : String) (sequenceLength : Nat) :
    SeqPredT :=
  let keyPredictions := (getTokenPredictionT tr input).rankedTokenList
  let st := seqLoopT tr sequenceLength input [] 0
  { completion := jsTrim (joinSp (dedupFirst st.2.1))
    sequenceLength := sequenceLength
    token := st.2.1.head?
    rankedTokenList := keyPredictions }

/-- Result record of `getCompletions`. -/
structure CompletionsT where
  completion : String
  token : Option String
  rankedTokenList : List String
  completions : List String
deriving Repr, DecidableEq

/-- The Transformer's `getCompletions`: a primary sequence prediction at
depth `MAX_RESPONSE_LENGTH`, plus one alternative completion per ranked
token. -/
def getCompletionsT (tr : Trie) (input : String) : CompletionsT :=
  let sp := getTokenSequencePredictionT tr input maxResponseLength
  let completions := [sp.completion] ++ sp.rankedTokenList.map (fun predictedToken =>
    predictedToken ++ " " ++
      (getTokenSequencePredictionT tr (input ++ " " ++ predictedToken)
        maxResponseLength).completion)
  { completion := sp.completion, token := sp.token,
    rankedTokenList := sp.rankedTokenList, completions := completions }

/-! ## Decoder (`src/components/Decoder/index.js`)

The Decoder keeps a token-pair count table (`embedding`) and a trie
(`model`).  `getSingleTokenPrediction` indexes `highest[0]` without
checking that `highest` exists, so the functions are embedded in `Except
Unit`, where `Except.error ()` models a thrown `TypeError`. -/

/-- Generic JavaScript property access on an object embedded as an
association list. -/
def findVal {β : Type} : List (String × β) → String → Option β
  | [], _ => none
  | (k, v) :: rest, key => if k = key then some v else findVal rest key

/-- Insert `x` into an already-sorted list, after every element that should
stay before it (`keep y x = true` means `y` stays before `x`). -/
def insSortedBy {α : Type} (keep : α → α → Bool) : List α → α → List α
  | [], x => [x]
  | y :: ys, x => if keep y x then y :: insSortedBy keep ys x else x :: y :: ys

/-- A stable sort, as `Array.prototype.sort` with a consistent comparator
behaves: elements are taken in order and each is placed after every element
the comparator does not order strictly after it. -/
def stableSortBy {α : Type} (keep : α → α → Bool) (l : List α) : List α :=
  l.foldl (insSortedBy keep) []

/-- `MISSING_EMBEDDING_ERROR`. -/
def missingEmbeddingError : String := "Failed to look up embedding."

/-- The Decoder's hard-coded `RANKING_BATCH_SIZE`. -/
def rankingBatchSizeD : Nat := 10

/-- A token-pair count table (`embedding` in the Decoder): token →
(next token → count), in key insertion order. -/
abbrev FreqTable := List (String × List (String × Nat))

/-- Result record of the Decoder's prediction functions; `token := none`
models `null`/`undefined`. -/
structure DPred where
  error : Option String
  token : Option String
  rankedTokenList : List String
deriving Repr, DecidableEq

/-- The Decoder's `getSingleTokenPrediction`: collect the `(token, count)`
pairs of `embedding[token]` in insertion order, sort ascending by count
(`(a, b) => a[1] - b[1]`, a stable numeric sort), then take `rankedTokens[0]`
— the pair with the SMALLEST count.  Indexing `highest[0]` throws when the
entry exists but is empty (`Except.error`). -/
def getSingleTokenPredictionD (emb : FreqTable) (token : String) : Except Unit DPred :=
  match findVal emb token with
  | some tokens =>
      let rankedTokens := stableSortBy (fun p q => p.2 ≤ q.2) tokens
      match rankedTokens.head? with
      | none => .error ()
      | some highest =>
          if highest.1 ≠ "" then
            .ok { error := none, token := some highest.1,
                  rankedTokenList := sliceLast rankingBatchSizeD (rankedTokens.map (·.1)) }
          else .ok { error := some missingEmbeddingError, token := none, rankedTokenList := [] }
  | none => .ok { error := some missingEmbeddingError, token := none, rankedTokenList := [] }

/-- The Decoder's `lookup`: split the sequence on spaces and walk the
`model` trie one level per token, with `|| {}` on a missing path. -/
def lookupD (model : Trie) (sequence : String) : Trie :=
  ((strSplitSp sequence).foldl
    (fun a b => a.bind (fun x => findChild x.children b)) (some model)).getD Trie.empty

/-- `Number` coercion of the second character of a string, as used by the
Decoder's `rankedTokens.sort((a, b) => a[1] - b[1])` on an array of key
STRINGS: a digit character coerces to its value, whitespace to `0`, a
missing or other character to `NaN` (`none`). -/
def jsSecondCharNum (s : String) : Option Nat :=
  match s.data.drop 1 with
  | [] => none
  | c :: _ =>
      if '0' ≤ c && c ≤ '9' then some (c.toNat - 48)
      else if isJsSpace c then some 0
      else none

/-- `a[1] - b[1]` on strings is positive exactly when both second characters
coerce to numbers and the first is larger; every `NaN` outcome counts as
`+0`, which leaves the order unchanged. -/
def jsStrNumGt (a b : String) : Bool :=
  match jsSecondCharNum a, jsSecondCharNum b with
  | some x, some y => y < x
  | _, _ => false

/-- The Decoder's state: the merged `model` trie and the `embedding` count
table.  (`model` is `undefined` before `createEmbedding` runs; `lookup`
treats that exactly like an empty object, which `Trie.empty` models.) -/
structure DecoderCtx where
  model : Trie
  embedding : FreqTable
deriving Repr

/-- The Decoder's `getTokenPrediction`: keys of the trie node of the
capitalized token, sorted with the string comparator `a[1] - b[1]`; the
FIRST element, when truthy, is returned with the last ten keys as the
ranked sample; otherwise fall back to `getSingleTokenPrediction`, and only
when that also yields no token report the missing-embedding error. -/
def getTokenPredictionD (ctx : DecoderCtx) (token : String) : Except Unit DPred :=
  let rankedTokens := stableSortBy (fun a b => !(jsStrNumGt a b))
    ((lookupD ctx.model (jsCapFirst token)).keys)
  let highest := rankedTokens.head?.getD ""
  if highest ≠ "" then
    .ok { error := none, token := some highest,
          rankedTokenList := sliceLast rankingBatchSizeD rankedTokens }
  else
    match getSingleTokenPredictionD ctx.embedding token with
    | .error e => .error e
    | .ok single =>
        if (single.token.getD "") ≠ "" then
          .ok { error := none,
                token := some (jsTrim (String.mk
                  (replBackslashN [] (single.token.getD "").data))),
                rankedTokenList := single.rankedTokenList }
        else .ok { error := some missingEmbeddingError, token := none, rankedTokenList := [] }

/-- The Decoder's `getTokenSequencePrediction` loop, with the same ghost
call counter as the Transformer's; a thrown lookup aborts the loop. -/
def seqLoopD (ctx : DecoderCtx) :
    Nat → String → List String → Nat → Except Unit (String × List String × Nat)
  | 0, result, seq, calls => .ok (result, seq, calls)
  | n + 1, result, seq, calls =>
      match getTokenPredictionD ctx result with
      | .error e => .error e
      | .ok pr =>
          if (pr.token.getD "") ≠ "" then
            let sanitized := jsTrim (String.mk (replBackslashN [] (pr.token.getD "").data))
            seqLoopD ctx n (result ++ " " ++ sanitized) (seq ++ [sanitized]) (calls + 1)
          else seqLoopD ctx n result seq (calls + 1)

/-- Result record of the Decoder's `getTokenSequencePrediction`. -/
structure SeqPredD where
  completion : String
  sequenceLength : Nat
  token : Option String
  rankedTokenList : List String
deriving Repr, DecidableEq

/-- The Decoder's `getTokenSequencePrediction`. -/
def getTokenSequencePredictionD (ctx : DecoderCtx) (token : String) (sequenceLength : Nat) :
    Except Unit SeqPredD :=
  match getTokenPredictionD ctx token with
  | .error e => .error e
  | .ok kp =>
      match seqLoopD ctx sequenceLength token [] 0 with
      | .error e => .error e
      | .ok st =>
          .ok { completion := jsTrim (joinSp (dedupFirst st.2.1)),
                sequenceLength := sequenceLength,
                token := st.2.1.head?,
                rankedTokenList := kp.rankedTokenList }

/-- Result record of the Decoder's `getCompletions`. -/
structure CompletionsD where
  completion : String
  token : Option String
  rankedTokenList : List String
  completions : List String
deriving Repr, DecidableEq

/-- The alternative-completions loop of the Decoder's `getCompletions`. -/
def altLoopD (ctx : DecoderCtx) (input : String) : List String → Except Unit (List String)
  | [] => .ok []
  | p :: ps =>
      match getTokenSequencePredictionD ctx (input ++ " " ++ p) maxResponseLength with
      | .error e => .error e
      | .ok sp =>
          match altLoopD ctx input ps with
          | .error e => .error e
          | .ok others => .ok ((p ++ " " ++ sp.completion) :: others)

/-- The Decoder's `getCompletions`. -/
def getCompletionsD (ctx : DecoderCtx) (input : String) : Except Unit CompletionsD :=
  match getTokenSequencePredictionD ctx input maxResponseLength with
  | .error e => .error e
  | .ok sp =>
      match altLoopD ctx input sp.rankedTokenList with
      | .error e => .error e
      | .ok alts =>
          .ok { completion := sp.completion, token := sp.token,
                rankedTokenList := sp.rankedTokenList,
                completions := sp.completion :: alts }

/-! ## Frequency training

`train` of the Decoder updates the count table directly.  `train` of the
Transformer updates one 144-component vector per `(token, nextToken)`
pair; we embed its effect on the next-word-frequency component (slot
`nextWordFrequencyIndexStart`), the only one the claims are about.
Modelled from the spec: `Vector.fromNull()` (`src/components/Vector` is not
under `src/`) initializes every component — in particular the frequency
slot `++` operates on — to zero, as §4.2 of the specification states
("initializing to zero then incrementing"). -/

/-- `token.match(MATCH_PUNCTUATION)`: does the token contain a punctuation
mark? -/
def containsPunctMark (s : String) : Bool := s.data.any isPunctMark

/-- `MATCH_NON_ALPHANUMERIC.test(token)` = `/[^a-zA-Z0-9]/.test(token)`. -/
def containsNonAlnum (s : String) : Bool := s.data.any (fun c => !isAsciiAlnum c)

/-- `nextToken.replace(MATCH_PUNCTUATION, '')`. -/
def stripPunct (s : String) : String := String.mk (s.data.filter (fun c => !isPunctMark c))

/-- Increment `entry[nx]`, initializing an absent binding to zero first
(`{...entry, [nx]: 0}` keeps an existing binding's position and appends a
new one at the end). -/
def bumpInner : List (String × Nat) → String → List (String × Nat)
  | [], nx => [(nx, 1)]
  | (k, c) :: rest, nx =>
      if k = nx then (k, c + 1) :: rest else (k, c) :: bumpInner rest nx

/-- Increment `table[tok][nx]`, initializing absent levels. -/
def bumpCount : FreqTable → String → String → FreqTable
  | [], tok, nx => [(tok, [(nx, 1)])]
  | (k, e) :: rest, tok, nx =>
      if k = tok then (k, bumpInner e nx) :: rest else (k, e) :: bumpCount rest tok nx

/-- One position of the Decoder's `train` scan: skip tokens containing
punctuation, skip tokens containing a non-alphanumeric character, skip
when there is no (or an empty) next token, skip when the next token starts
with an uppercase letter; otherwise strip punctuation from the next token
and increment its count after the token. -/
def decoderTrainStep (tbl : FreqTable) (token : String) (nextTok : Option String) :
    FreqTable :=
  if containsPunctMark token then tbl
  else if containsNonAlnum token then tbl
  else
    match nextTok with
    | none => tbl
    | some nx =>
        if nx = "" then tbl
        else if (nx.data.head?.map isAsciiUpper).getD false then tbl
        else bumpCount tbl token (stripPunct nx)

/-- The Decoder's `train` scan over the ordered token stream (the
`tokens.map((token, index) => ...)` loop), starting from the current
`embedding` table. -/
def decoderTrain (tbl : FreqTable) : List String → FreqTable
  | [] => tbl
  | t :: rest => decoderTrain (decoderTrainStep tbl t rest.head?) rest

/-- One position of the Transformer's `train` scan, projected to the
next-word-frequency slot: skip falsy (empty) tokens, tokens containing
punctuation, tokens containing a non-alphanumeric character, and positions
with no (or an empty) next token; otherwise increment the count. -/
def transformerFreqStep (tbl : FreqTable) (token : String) (nextTok : Option String) :
    FreqTable :=
  if token = "" then tbl
  else if containsPunctMark token then tbl
  else if containsNonAlnum token then tbl
  else
    match nextTok with
    | none => tbl
    | some nx => if nx = "" then tbl else bumpCount tbl token nx

/-- The Transformer's `train` scan over the ordered token stream, projected
to the next-word-frequency slot. -/
def transformerFreqTrain (tbl : FreqTable) : List String → FreqTable
  | [] => tbl
  | t :: rest => transformerFreqTrain (transformerFreqStep tbl t rest.head?) rest

/-- The count recorded for the pair `(tok, nx)` in a table (zero when
absent). -/
def countOf (tbl : FreqTable) (tok nx : String) : Nat :=
  ((findVal tbl tok).bind (fun e => findVal e nx)).getD 0

/-! ## Feature embedder (`src/models/Transformer/wordToVec9/index.js`)

Arithmetic is embedded in `Option ℚ`: `none` models `NaN` (and the
`undefined` values that turn into `NaN` when used in arithmetic).
JavaScript's `±Infinity`, which can only arise here from dividing a
non-zero value by zero, is represented by `±2`: the surrounding
`Math.max(0, Math.min(1, ·))` clamp maps it to the same result (`1`
resp. `0`) as the real infinities. -/

/-- `posSpecificityList` (`wordToVec9/pos`; the list appears verbatim in the
sibling embedding module, `src/unnamed/part_001`). -/
def posSpecificityList : List String :=
  ["TO", "CD", "UH", "FW", "CC", "EX", "LS", "RP", "SYM", "DT", "WDT", "MD",
   "IN", "POS", "PRP", "PRP$", "RB", "RBR", "RBS", "WRB", "PDT", "JJ", "JJR",
   "JJS", "VB", "VBD", "VBG", "VBN", "VBP", "VBZ", "WP", "WP$", "NN", "NNS",
   "NNP", "NNPS"]

/-- The `alphabet` array of `wordToVec9/letters` (as in
`src/unnamed/part_001`): the 26 lowercase letters. -/
def alphabetLower : List Char := "abcdefghijklmnopqrstuvwxyz".data

/-- The `vowels` of `wordToVec9/letters`. -/
def vowelList : List Char := "aeiou".data

/-- `tokenizeSequence`: lowercase, trim, REMOVE (not replace by a space)
every character of `[\p{P}$+<=>^`|~]`, split on spaces.  The class is the
tokenizer's class without the explicit `\n` member. -/
def tokenizeSequence (s : String) : List String :=
  (splitCh ' '
    ((jsTrimL (s.data.map Char.toLower)).filter
      (fun c => !(isTokClass c && c ≠ '\n')))).map String.mk

/-- `Array.prototype.indexOf` on a character array, with JavaScript's `-1`
for a missing element and for `undefined`. -/
def jsIndexOfChar (l : List Char) : Option Char → Int
  | none => -1
  | some c =>
      match l.findIdx? (fun d => d = c) with
      | some i => (i : Int)
      | none => -1

/-- `getTokenPrevalence`: the number of distinct continuations recorded for
the token, zero for an unknown token. -/
def getTokenPrevalence (bg : FreqTable) (token : String) : Nat :=
  match findVal bg token with
  | some e => e.length
  | none => 0

/-- `getMaxTokenPrevalence`: prevalences of all keys, sorted ascending
(`(a, b) => a > b ? 1 : -1`, a stable ascending sort) and popped —
`undefined` (`none`) on an empty table. -/
def getMaxTokenPrevalence (bg : FreqTable) : Option Nat :=
  (stableSortBy (fun a b => a ≤ b) (bg.map (fun e => getTokenPrevalence bg e.1))).getLast?

/-- `getMostFrequentNextToken`: the keys of the token's entry sorted
ascending by count and popped; `none` models both the `false` of a missing
entry and the `undefined` pop of an empty one. -/
def getMostFrequentNextToken (bg : FreqTable) (token : String) : Option String :=
  match findVal bg token with
  | some e =>
      (stableSortBy (fun a b => (findVal e a).getD 0 ≤ (findVal e b).getD 0)
        (e.map (·.1))).getLast?
  | none => none

/-- `getMostFrequentNextTokenValue`: the count stored under the most
frequent next token, `-1` for an unknown token; an empty entry gives
`undefined` (`none`). -/
def getMostFrequentNextTokenValue (bg : FreqTable) (token : String) : Option ℚ :=
  match findVal bg token with
  | some e =>
      match getMostFrequentNextToken bg token with
      | some k => (findVal e k).map (fun n => (n : ℚ))
      | none => none
  | none => some (-1)

/-- `getMaxTokenFrequency`: the values of the token's entry sorted ascending
and popped, zero for an unknown token; an empty entry gives `undefined`. -/
def getMaxTokenFrequency (bg : FreqTable) (token : String) : Option ℚ :=
  match findVal bg token with
  | some e => (stableSortBy (fun a b => a ≤ b) (e.map (fun p => (p.2 : ℚ)))).getLast?
  | none => some 0

/-- `getMaxFrequency`: the per-token maxima sorted ascending and popped.
`Array.prototype.sort` moves `undefined` elements to the end, so any
`undefined` per-token maximum (an empty entry) makes the pop `undefined`;
an empty table pops `undefined` as well. -/
def getMaxFrequency (bg : FreqTable) : Option ℚ :=
  let vals := bg.map (fun e => getMaxTokenFrequency bg e.1)
  if vals.any (fun v => v.isNone) then none
  else (stableSortBy (fun a b => a ≤ b) (vals.filterMap id)).getLast?

/-- `getFirstVowel`: the first character of the string whose lowercase form
is a vowel, `undefined` (`none`) when there is none. -/
def getFirstVowel (s : String) : Option Char :=
  s.data.find? (fun c => vowelList.contains c.toLower)

/-- `getVowels` of `wordToVec9`: the local `let vowels = []` SHADOWS the
imported vowel list, so the membership test is against the empty list and
the function returns `[]` for every string. -/
def getVowels (s : String) : List Char :=
  s.data.filter (fun c => ([] : List Char).contains c.toLower)

/-- `getPOSSpecificity`: `posSpecificityList.indexOf(tag)`. -/
def getPOSSpecificity (tag : String) : Int :=
  match posSpecificityList.findIdx? (fun t => t = tag) with
  | some i => (i : Int)
  | none => -1

/-- JavaScript division on possibly-`NaN` operands: `NaN` propagates;
division by zero gives `NaN` for `0 / 0` and `±Infinity` (represented by
`±2`, equivalent under the clamp) otherwise. -/
def divJS : Option ℚ → Option ℚ → Option ℚ
  | some x, some y =>
      if y = 0 then (if x = 0 then none else some (if 0 < x then 2 else -2))
      else some (x / y)
  | _, _ => none

/-- `Math.min(a, b)` on numbers. -/
def jsMin (a b : ℚ) : ℚ := if a ≤ b then a else b

/-- `Math.max(a, b)` on numbers. -/
def jsMax (a b : ℚ) : ℚ := if a ≤ b then b else a

/-- `Math.max(0, Math.min(1, x))`, with `NaN` propagating. -/
def clampJS : Option ℚ → Option ℚ
  | none => none
  | some x => some (jsMax 0 (jsMin 1 x))

/-- The embedding vector `toVecs` computes for one token (a token whose
`bigrams` entry exists).  The `prenormalized` and `maximums` arrays are
exactly the source's, including the swap of `maxFrequency` and
`maxPrevalence` at indices 6 and 7, and the constant `'RB'` POS tag. -/
def embedFor (bg : FreqTable) (token : String) : List (Option ℚ) :=
  let frequency := getMostFrequentNextTokenValue bg token
  let prevalence : ℚ := (getTokenPrevalence bg token : ℚ)
  let specificity : ℚ := (getPOSSpecificity "RB" : ℚ)
  let tokLength : ℚ := (token.data.length : ℚ)
  let firstLetter : ℚ := (jsIndexOfChar alphabetLower token.data.head? : ℚ)
  let lastLetter : ℚ := (jsIndexOfChar alphabetLower token.data.getLast? : ℚ)
  let firstVowel : ℚ := (jsIndexOfChar alphabetLower (getFirstVowel token) : ℚ)
  let lastVowel : ℚ :=
    (jsIndexOfChar alphabetLower (getFirstVowel (String.mk token.data.reverse)) : ℚ)
  let vowelCount : ℚ := ((getVowels token).length : ℚ)
  let prenormalized : List (Option ℚ) :=
    [some specificity, some lastLetter, some lastVowel, some vowelCount,
     some firstLetter, some firstVowel, some prevalence, frequency, some tokLength]
  let maximums : List (Option ℚ) :=
    [some ((posSpecificityList.length : ℚ) - 1), some 25, some 25, some 10, some 25,
     some 25, getMaxFrequency bg, (getMaxTokenPrevalence bg).map (fun n => (n : ℚ)),
     some 20]
  (prenormalized.zip maximums).map (fun p => clampJS (divJS p.1 p.2))

/-- `toVecs`: tokenize the sequence and embed every token that has a
`bigrams` entry, skipping the others. -/
def toVecs (bg : FreqTable) (sequence : String) : List (List (Option ℚ)) :=
  (tokenizeSequence sequence).filterMap (fun token =>
    match findVal bg token with
    | none => none
    | some _ => some (embedFor bg token))

/-! ## Path semantics of the trie -/

/-- Does the token path exist from the root of the trie? -/
def hasPathB : Trie → List String → Bool
  | _, [] => true
  | t, k :: ks =>
      match findChild t.children k with
      | some t2 => hasPathB t2 ks
      | none => false

/-- `isLeadB p ws`: is `p` an initial segment of `ws`? -/
def isLeadB : List String → List String → Bool
  | [], _ => true
  | _ :: _, [] => false
  | a :: ps, b :: ws => a = b && isLeadB ps ws

/-- Walking a trie along a token path (the `reduce((a, b) => a?.[b])`). -/
def walk : Trie → List String → Option Trie
  | t, [] => some t
  | t, k :: ks =>
      match findChild t.children k with
      | some t2 => walk t2 ks
      | none => none

/-- Key uniqueness of one children level. -/
def keysUniq : List String → Bool
  | [] => true
  | k :: ks => !(ks.any (fun x => x = k)) && keysUniq ks

mutual

/-- Every level of the trie has pairwise distinct keys (true of every
JavaScript object). -/
def Trie.wfKeys : Trie → Bool
  | .node cs => keysUniq (cs.map (·.1)) && wfChildren cs

/-- `Trie.wfKeys` over a children list. -/
def wfChildren : List (String × Trie) → Bool
  | [] => true
  | (_, t) :: rest => t.wfKeys && wfChildren rest

end

/-- No two adjacent characters of the list satisfy the given relation. -/
def noPairB (bad : Char → Char → Bool) : List Char → Bool
  | [] => true
  | [_] => true
  | a :: b :: rest => !bad a b && noPairB bad (b :: rest)

/-- A character some `toPlainText` stage strips or rewrites outright. -/
def isStripChar (c : Char) : Bool :=
  c = '\n' || c = '\r' || c = Char.ofNat 0 || c = '©' || c = '|' || c = '!' ||
  c = '(' || c = '–' || c = '?' || c = '$' || c = '”' || c = '“' || c = '…'

/-- No occurrence of the `\s-+\s` pattern anywhere in the list. -/
def noDashPat : List Char → Bool
  | [] => true
  | c :: rest =>
      (if isJsSpace c then
        !((rest.takeWhile (fun d => d = '-')).length ≠ 0 &&
          ((rest.drop (rest.takeWhile (fun d => d = '-')).length).head?.map
            isJsSpace).getD false)
       else true) && noDashPat rest

/-- First character already its own uppercase, and not a non-space
whitespace character (which the `^\s` alternative would rewrite to a
space). -/
def headPlain : List Char → Bool
  | [] => true
  | c :: _ => c.toUpper = c && (!isJsSpace c || c = ' ')

/-- Plain text in the sense of `toPlainText`: text each of whose rewriting
stages is the identity — a capitalized, non-whitespace-led first character,
none of the stripped special characters, no lowercase–uppercase adjacency,
no dot before whitespace, no whitespace run of length two or more, and no
whitespace–dashes–whitespace pattern. -/
def isPlainL (l : List Char) : Bool :=
  headPlain l && l.all (fun c => !isStripChar c) &&
  noPairB (fun a b => isAsciiLower a && isAsciiUpper b) l &&
  noPairB (fun a b => a = '.' && isJsSpace b) l &&
  noPairB (fun a b => isJsSpace a && isJsSpace b) l &&
  noDashPat l

/-- `isPlainL` on a string. -/
def isPlainStr (s : String) : Bool := isPlainL s.data

/-- A well-formed bigram table, as training produces it: every token's
entry is non-empty and every recorded count is at least one. -/
abbrev wfBigrams (bg : FreqTable) : Prop :=
  ∀ e ∈ bg, e.2 ≠ [] ∧ ∀ p ∈ e.2, 1 ≤ p.2

/-- The positions of an ordered token stream, each with its next token
(`none` past the end). -/
def pairsOf : List String → List (String × Option String)
  | [] => []
  | t :: rest => (t, rest.head?) :: pairsOf rest

/-- The frequency-training step exactly as claim C7 words it (this
definition follows the claim's words, for comparison with the
source-derived trainers): skip a position whose token matches the
punctuation or non-alphanumeric pattern or whose next token does not
exist; otherwise initialize `table[token][next]` to zero if absent and
increment it. -/
def claimC7Step (tbl : FreqTable) (token : String) (nextTok : Option String) :
    FreqTable :=
  if containsPunctMark token then tbl
  else if containsNonAlnum token then tbl
  else
    match nextTok with
    | none => tbl
    | some nx => bumpCount tbl token nx

/-- The frequency trainer exactly as claim C7 words it. -/
def claimC7Train (tbl : FreqTable) : List String → FreqTable
  | [] => tbl
  | t :: rest => claimC7Train (claimC7Step tbl t rest.head?) rest

/-- Does a position of the stream contribute one count to `table[a][b]`
under the Decoder's `train`? -/
def decoderCountsAt (a b : String) (p : String × Option String) : Bool :=
  match p.2 with
  | none => false
  | some nx =>
      p.1 = a && !containsPunctMark p.1 && !containsNonAlnum p.1 &&
      nx ≠ "" && !((nx.data.head?.map isAsciiUpper).getD false) && stripPunct nx = b

/-- Does a position of the stream contribute one count to `table[a][b]`
under the Transformer's `train`? -/
def transformerCountsAt (a b : String) (p : String × Option String) : Bool :=
  match p.2 with
  | none => false
  | some nx =>
      p.1 = a && p.1 ≠ "" && !containsPunctMark p.1 && !containsNonAlnum p.1 &&
      nx = b && nx ≠ ""

/-- The length facts claim C5 states about a Decoder `getCompletions`
result: on a normal return, the completions list is one longer than the
ranked token list, which is bounded by the Decoder's ranking batch size;
a thrown lookup returns no record at all. -/
def completionsLenOkD : Except Unit CompletionsD → Prop
  | .error _ => True
  | .ok r =>
      r.completions.length = 1 + r.rankedTokenList.length ∧
        r.rankedTokenList.length ≤ rankingBatchSizeD

theorem hasPathB_eq_isSome_walk (t : Trie) (p : List String) :
    hasPathB t p = (walk t p).isSome := by
  induction p generalizing t with
  | nil => simp [hasPathB, walk]
  | cons k ks ih =>
      simp only [hasPathB, walk]
      cases findChild t.children k with
      | none => simp
      | some t2 => simpa using ih t2

theorem walk_append_single (t : Trie) (p : List String) (c : String) :
    walk t (p ++ [c]) = (walk t p).bind (fun u => findChild u.children c) := by
  induction p generalizing t with
  | nil =>
      simp only [List.nil_append, walk, Option.bind_some]
      cases h : findChild t.children c <;> simp [walk, h]
  | cons k ks ih =>
      simp only [List.cons_append, walk]
      cases h : findChild t.children k with
      | none => simp
      | some t2 => exact ih t2

theorem foldl_bind_none (toks : List String) :
    toks.foldl (fun a b => a.bind (fun x => findChild x.children b))
      (none : Option Trie) = none := by
  induction toks with
  | nil => rfl
  | cons k ks ih => simpa using ih

theorem foldl_bind_eq_walk (t : Trie) (toks : List String) :
    toks.foldl (fun a b => a.bind (fun x => findChild x.children b)) (some t) =
      walk t toks := by
  induction toks generalizing t with
  | nil => rfl
  | cons k ks ih =>
      simp only [List.foldl_cons, Option.bind_some, walk]
      cases h : findChild t.children k with
      | none => simp only [Option.some_bind, h]; simpa using foldl_bind_none ks
      | some t2 => simp only [Option.some_bind, h]; simpa using ih t2

theorem mergeStep_eq (fuel : Nat) (k : String) (v : Trie) (acc : List (String × Trie)) :
    (let i := acc.findIdx (fun p => p.1 = k)
     if h : i < acc.length then
       acc.set i (k, mergeTrieF fuel (acc.get ⟨i, h⟩).2 v)
     else acc ++ [(k, v)]) = insertChildF fuel acc k v := by
  induction acc with
  | nil => simp [insertChildF]
  | cons p ds ih =>
      obtain ⟨kp, t⟩ := p
      by_cases hk : kp = k
      · subst hk
        simp [List.findIdx_cons, insertChildF, List.set]
      · have hfi : ((kp, t) :: ds).findIdx (fun p => p.1 = k) =
            ds.findIdx (fun p => p.1 = k) + 1 := by
          simp [List.findIdx_cons, hk]
        simp only [hfi, insertChildF, if_neg hk]
        by_cases hlt : ds.findIdx (fun p => p.1 = k) < ds.length
        · have hlt2 : ds.findIdx (fun p => p.1 = k) + 1 < ((kp, t) :: ds).length := by
            simp only [List.length_cons]; omega
          rw [dif_pos hlt2]
          simp only [List.set]
          rw [← ih]
          simp [dif_pos hlt]
        · have hlt2 : ¬(ds.findIdx (fun p => p.1 = k) + 1 < ((kp, t) :: ds).length) := by
            simp only [List.length_cons]; omega
          rw [dif_neg hlt2]
          rw [← ih]
          simp [dif_neg hlt]

theorem mergeTrieF_succ (fuel : Nat) (dst src : List (String × Trie)) :
    mergeTrieF (fuel + 1) (.node dst) (.node src) =
      .node (src.foldl (fun acc kv => insertChildF fuel acc kv.1 kv.2) dst) := by
  have h : ∀ (src2 : List (String × Trie)) (acc : List (String × Trie)),
      src2.foldl (fun acc kv =>
        let i := acc.findIdx (fun p => p.1 = kv.1)
        if h : i < acc.length then
          acc.set i (kv.1, mergeTrieF fuel (acc.get ⟨i, h⟩).2 kv.2)
        else acc ++ [kv]) acc =
      src2.foldl (fun acc kv => insertChildF fuel acc kv.1 kv.2) acc := by
    intro src2
    induction src2 with
    | nil => intro acc; rfl
    | cons kv rest ih =>
        intro acc
        obtain ⟨k, v⟩ := kv
        simp only [List.foldl_cons]
        rw [mergeStep_eq fuel k v acc] at *
        exact ih _
  simp only [mergeTrieF]
  rw [h src dst]

theorem findChild_insertChildF (fuel : Nat) (d : List (String × Trie)) (k0 : String)
    (v0 : Trie) (k : String) :
    findChild (insertChildF fuel d k0 v0) k =
      if k = k0 then
        (match findChild d k0 with
         | some t => some (mergeTrieF fuel t v0)
         | none => some v0)
      else findChild d k := by
  induction d with
  | nil =>
      simp only [insertChildF, findChild]
      by_cases h : k = k0
      · subst h; simp
      · have h2 : ¬(k0 = k) := fun he => h he.symm
        simp [h, h2]
  | cons p ds ih =>
      obtain ⟨kp, t⟩ := p
      by_cases h1 : kp = k0
      · subst h1
        by_cases h2 : k = kp
        · subst h2; simp [insertChildF, findChild]
        · have h3 : ¬(kp = k) := fun h => h2 h.symm
          simp [insertChildF, findChild, h2, h3]
      · by_cases h2 : kp = k
        · have h3 : ¬(k = k0) := fun h => h1 (h2.trans h)
          simp [insertChildF, if_neg h1, findChild, h2, h3]
        · simp only [insertChildF, if_neg h1, findChild, if_neg h2]
          exact ih

theorem findChild_eq_none_of_not_mem {l : List (String × Trie)} {k : String}
    (h : k ∉ l.map Prod.fst) : findChild l k = none := by
  induction l with
  | nil => rfl
  | cons p ds ih =>
      obtain ⟨kp, t⟩ := p
      simp only [List.map_cons, List.mem_cons] at h
      push_neg at h
      have : ¬(kp = k) := fun he => h.1 he.symm
      simp [findChild, this]
      exact ih h.2

theorem findChild_mergeFold (fuel : Nat) (src : List (String × Trie))
    (hsrc : keysUniq (src.map Prod.fst) = true) (k : String) :
    ∀ dst : List (String × Trie),
      findChild (src.foldl (fun acc kv => insertChildF fuel acc kv.1 kv.2) dst) k =
        (match findChild dst k, findChild src k with
         | none, none => none
         | some a, none => some a
         | none, some b => some b
         | some a, some b => some (mergeTrieF fuel a b)) := by
  induction src with
  | nil =>
      intro dst
      simp only [List.foldl_nil, findChild]
      cases findChild dst k <;> rfl
  | cons kv rest ih =>
      intro dst
      obtain ⟨k0, v0⟩ := kv
      simp only [List.map_cons, keysUniq, Bool.and_eq_true, Bool.not_eq_true'] at hsrc
      obtain ⟨hnotmem, huniq⟩ := hsrc
      simp only [List.foldl_cons]
      rw [ih huniq]
      by_cases hk : k = k0
      · subst hk
        have hrest : findChild rest k = none := by
          apply findChild_eq_none_of_not_mem
          intro hmem
          simp only [List.any_eq_false, decide_eq_true_eq] at hnotmem
          exact hnotmem k hmem rfl
        rw [hrest, findChild_insertChildF, if_pos rfl]
        simp only [findChild, if_pos rfl]
        cases findChild dst k <;> rfl
      · rw [findChild_insertChildF, if_neg hk]
        have : ¬(k0 = k) := fun h => hk h.symm
        simp only [findChild, if_neg this]

theorem one_le_size (t : Trie) : 1 ≤ t.size := by
  cases t with
  | node cs => simp only [Trie.size]; omega

theorem size_le_of_findChild {l : List (String × Trie)} {k : String} {y : Trie}
    (h : findChild l k = some y) : y.size ≤ sizeChildren l := by
  induction l with
  | nil => simp [findChild] at h
  | cons p ds ih =>
      obtain ⟨kp, t⟩ := p
      simp only [findChild] at h
      by_cases hk : kp = k
      · rw [if_pos hk] at h
        obtain rfl : t = y := by injection h
        simp only [sizeChildren]; omega
      · rw [if_neg hk] at h
        have := ih h
        simp only [sizeChildren]; omega

theorem wf_of_findChild {l : List (String × Trie)} {k : String} {y : Trie}
    (hwf : wfChildren l = true) (h : findChild l k = some y) : y.wfKeys = true := by
  induction l with
  | nil => simp [findChild] at h
  | cons p ds ih =>
      obtain ⟨kp, t⟩ := p
      simp only [findChild] at h
      simp only [wfChildren, Bool.and_eq_true] at hwf
      by_cases hk : kp = k
      · rw [if_pos hk] at h
        obtain rfl : t = y := by injection h
        exact hwf.1
      · rw [if_neg hk] at h
        exact ih hwf.2 h

theorem hasPathB_mergeTrieF :
    ∀ (fuel : Nat) (b : Trie), b.size ≤ fuel → b.wfKeys = true →
      ∀ (a : Trie) (p : List String),
        hasPathB (mergeTrieF fuel a b) p = (hasPathB a p || hasPathB b p) := by
  intro fuel
  induction fuel with
  | zero =>
      intro b hsize
      have := one_le_size b
      omega
  | succ fuel ih =>
      intro b hsize hwf a p
      obtain ⟨sb⟩ := b
      obtain ⟨da⟩ := a
      simp only [Trie.wfKeys, Bool.and_eq_true] at hwf
      rw [mergeTrieF_succ]
      cases p with
      | nil => simp [hasPathB]
      | cons k ks =>
          simp only [hasPathB, Trie.children]
          rw [findChild_mergeFold fuel sb hwf.1 k da]
          cases hda : findChild da k with
          | none =>
              cases hsb : findChild sb k with
              | none => simp
              | some y => simp
          | some x =>
              cases hsb : findChild sb k with
              | none => simp
              | some y =>
                  simp only []
                  rw [ih y ?hs ?hw x ks]
                  case hs =>
                    have h1 := size_le_of_findChild hsb
                    simp only [Trie.size] at hsize
                    omega
                  case hw => exact wf_of_findChild hwf.2 hsb

theorem hasPathB_mergeTrie (a b : Trie) (hwf : b.wfKeys = true) (p : List String) :
    hasPathB (mergeTrie a b) p = (hasPathB a p || hasPathB b p) :=
  hasPathB_mergeTrieF b.size b le_rfl hwf a p

theorem chainOf_wfKeys (ws : List String) : (chainOf ws).wfKeys = true := by
  induction ws with
  | nil => rfl
  | cons w ws ih => simp [chainOf, Trie.wfKeys, keysUniq, wfChildren, ih]

theorem hasPathB_foldl_merge (chains : List Trie)
    (hwf : ∀ c ∈ chains, c.wfKeys = true) :
    ∀ (t0 : Trie) (p : List String),
      hasPathB (chains.foldl mergeTrie t0) p =
        (hasPathB t0 p || chains.any (fun c => hasPathB c p)) := by
  induction chains with
  | nil => intro t0 p; simp
  | cons c cs ih =>
      intro t0 p
      simp only [List.foldl_cons, List.any_cons]
      rw [ih (fun x hx => hwf x (List.mem_cons_of_mem c hx)) (mergeTrie t0 c) p]
      rw [hasPathB_mergeTrie t0 c (hwf c (List.mem_cons_self c cs)) p]
      rw [Bool.or_assoc]

theorem chunkListF_join {α : Type} :
    ∀ (fuel : Nat) (l : List α), (chunkListF fuel l).flatten = l := by
  intro fuel
  induction fuel with
  | zero => intro l; cases l <;> simp [chunkListF]
  | succ fuel ih =>
      intro l
      cases l with
      | nil => simp [chunkListF]
      | cons x xs =>
          have hj : (((x :: xs).take 50000) :: chunkListF fuel ((x :: xs).drop 50000)).flatten =
              (x :: xs).take 50000 ++ (chunkListF fuel ((x :: xs).drop 50000)).flatten := rfl
          simp only [chunkListF, hj, ih]
          exact List.take_append_drop 50000 (x :: xs)

theorem foldl_chunks {α β : Type} (f : β → α → β) :
    ∀ (L : List (List α)) (b : β),
      L.foldl (fun t c => c.foldl f t) b = L.flatten.foldl f b := by
  intro L
  induction L with
  | nil => intro b; rfl
  | cons c cs ih =>
      intro b
      have hj : (c :: cs).flatten = c ++ cs.flatten := rfl
      rw [List.foldl_cons, hj, List.foldl_append, ih]

theorem hasPathB_chainOf (p ws : List String) :
    hasPathB (chainOf ws) p = isLeadB p ws := by
  induction p generalizing ws with
  | nil => simp [hasPathB, isLeadB]
  | cons a ps ih =>
      cases ws with
      | nil => simp [hasPathB, chainOf, Trie.children, findChild, Trie.empty, isLeadB]
      | cons b ws2 =>
          simp only [hasPathB, chainOf, Trie.children, findChild, isLeadB]
          by_cases hab : b = a
          · subst hab; simpa using ih ws2
          · have hba : (a = b) = False := eq_false (fun h => hab h.symm)
            simp [hab, hba]

theorem splitCh_ne_nil (sep : Char) (l : List Char) : splitCh sep l ≠ [] := by
  cases l with
  | nil => simp [splitCh]
  | cons c rest =>
      simp only [splitCh]
      by_cases h : c = sep
      · simp [h]
      · rw [if_neg h]
        cases splitCh sep rest <;> simp

theorem strSplitSp_ne_nil (s : String) : strSplitSp s ≠ [] := by
  simp only [strSplitSp]
  intro h
  exact splitCh_ne_nil ' ' s.data (List.map_eq_nil_iff.mp h)

theorem createContextTrie_hasPath (prev : Trie) (text : String) (p : List String) :
    hasPathB (createContextTrie prev text) p =
      (hasPathB prev p ||
        (textToSequences text).any (fun sq => isLeadB p (strSplitSp sq))) := by
  simp only [createContextTrie, chunkList]
  rw [foldl_chunks, chunkListF_join]
  rw [hasPathB_foldl_merge _ (fun c hc => by
    obtain ⟨sq, _, rfl⟩ := List.mem_map.mp hc
    exact chainOf_wfKeys _)]
  congr 1
  induction textToSequences text with
  | nil => rfl
  | cons sq sqs ih =>
      simp only [List.map_cons, List.any_cons, ih, hasPathB_chainOf]

theorem contains_map_fst_eq_isSome (l : List (String × Trie)) (c : String) :
    ((l.map Prod.fst).contains c) = (findChild l c).isSome := by
  induction l with
  | nil => rfl
  | cons p ds ih =>
      obtain ⟨kp, t⟩ := p
      by_cases h : kp = c
      · subst h; simp [findChild]
      · have h2 : ¬(c = kp) := fun he => h he.symm
        simp only [List.map_cons, List.contains_cons, findChild, if_neg h]
        rw [ih]
        simp [h2]

theorem ngramSearch_eq_walk (t : Trie) (s : String) :
    ngramSearch t s = (walk t (strSplitSp s)).getD Trie.empty := by
  simp only [ngramSearch, foldl_bind_eq_walk]

theorem keysContains_ngramSearch (t : Trie) (s c2tok : String) :
    (ngramSearch t s).keys.contains c2tok = hasPathB t (strSplitSp s ++ [c2tok]) := by
  rw [ngramSearch_eq_walk]
  cases hw : walk t (strSplitSp s) with
  | none =>
      have hp : hasPathB t (strSplitSp s ++ [c2tok]) = false := by
        rw [hasPathB_eq_isSome_walk, walk_append_single, hw]; rfl
      simp [Trie.empty, Trie.keys, Trie.children, hp]
  | some u =>
      have hp : hasPathB t (strSplitSp s ++ [c2tok]) = (findChild u.children c2tok).isSome := by
        rw [hasPathB_eq_isSome_walk, walk_append_single, hw]; rfl
      rw [hp]
      exact contains_map_fst_eq_isSome u.children c2tok

theorem hasPathB_empty_cons (k : String) (ks : List String) :
    hasPathB Trie.empty (k :: ks) = false := rfl

/-- Claim C1 (amended): `createContext` does NOT rebuild `Context.trie` from
scratch — it deep-merges the new training text's sequence chains into the
previous trie, so a path exists in the resulting trie exactly when it
existed in the previous trie or is an initial segment of one of the new
text's tokenized sequences.  (The `Context` object itself is created once
at module scope, so this previous trie is shared by every model instance
the module produces.) -/
theorem claim_C1_context_merges_previous_trie (prev : Trie) (text : String)
    (p : List String) :
    hasPathB (createContextTrie prev text) p =
      (hasPathB prev p ||
        (textToSequences text).any (fun sq => isLeadB p (strSplitSp sq))) :=
  createContextTrie_hasPath prev text p

/-- Claim C1, counterexample: training on `"C d"` and then re-training on
`"E f"` does not give the trie that training on `"E f"` alone gives — the
path `C → d` from the first cycle is still present. -/
theorem claim_C1_counterexample :
    createContextTrie (createContextTrie Trie.empty "C d") "E f" ≠
      createContextTrie Trie.empty "E f" := by
  intro h
  exact absurd (congrArg (fun t => hasPathB t ["C", "d"]) h) (by decide)

/-- Claim C2: for a context trained from scratch on any text, `ngramSearch`
(the Decoder's `lookup` is the same function on its own trie) splits the
prefix on spaces and walks the trie one level per token; a token `c` is among
the continuations it returns exactly when `prefix-tokens ++ [c]` is an
initial segment of one of the training text's tokenized sequences, and when
the prefix path was never observed the result is the empty mapping. -/
theorem claim_C2_lookup_exact (text s c2tok : String) :
    ((ngramSearch (createContextTrie Trie.empty text) s).keys.contains c2tok =
      (textToSequences text).any
        (fun sq => isLeadB (strSplitSp s ++ [c2tok]) (strSplitSp sq)))
    ∧ ((textToSequences text).all
        (fun sq => !isLeadB (strSplitSp s) (strSplitSp sq)) = true →
        ngramSearch (createContextTrie Trie.empty text) s = Trie.empty) := by
  constructor
  · rw [keysContains_ngramSearch, createContextTrie_hasPath]
    obtain ⟨a, rest, ha⟩ : ∃ a rest, strSplitSp s = a :: rest := by
      cases hs : strSplitSp s with
      | nil => exact absurd hs (strSplitSp_ne_nil s)
      | cons a rest => exact ⟨a, rest, rfl⟩
    rw [ha]
    simp [hasPathB_empty_cons]
  · intro hall
    rw [ngramSearch_eq_walk]
    have hany : (textToSequences text).any
        (fun sq => isLeadB (strSplitSp s) (strSplitSp sq)) = false := by
      rw [List.any_eq_false]
      intro sq hsq
      have := List.all_eq_true.mp hall sq hsq
      simpa using this
    have hpath : hasPathB (createContextTrie Trie.empty text) (strSplitSp s) = false := by
      rw [createContextTrie_hasPath, hany]
      obtain ⟨a, rest, ha⟩ : ∃ a rest, strSplitSp s = a :: rest := by
        cases hs : strSplitSp s with
        | nil => exact absurd hs (strSplitSp_ne_nil s)
        | cons a rest => exact ⟨a, rest, rfl⟩
      rw [ha, hasPathB_empty_cons]
      rfl
    rw [hasPathB_eq_isSome_walk] at hpath
    cases hw : walk (createContextTrie Trie.empty text) (strSplitSp s) with
    | none => rfl
    | some u => rw [hw] at hpath; simp at hpath

/-- Claim C2, witness: a concrete trained context, looked up at an observed
prefix and at an unobserved one. -/
theorem claim_C2_witness :
    (((ngramSearch (createContextTrie Trie.empty "Aa bb cc") "Aa").keys.contains "bb" =
      (textToSequences "Aa bb cc").any
        (fun sq => isLeadB (strSplitSp "Aa" ++ ["bb"]) (strSplitSp sq)))) ∧
    ((textToSequences "Aa bb cc").all
        (fun sq => !isLeadB (strSplitSp "zz") (strSplitSp sq)) = true ∧
      ngramSearch (createContextTrie Trie.empty "Aa bb cc") "zz" = Trie.empty) :=
  ⟨(claim_C2_lookup_exact "Aa bb cc" "Aa" "bb").1,
   by decide,
   (claim_C2_lookup_exact "Aa bb cc" "zz" "irrelevant").2 (by decide)⟩

/-! ## Claims C10, C4, C3, C5: the prediction engine -/

/-- Claim C10: an empty (falsy) input token makes the Transformer's
`getTokenPrediction` return an empty token and empty ranked list WITHOUT an
`error` field, while a non-empty token whose capitalized trie lookup is
empty gets a populated error message. -/
theorem claim_C10_empty_token_no_error (tr : Trie) :
    getTokenPredictionT tr "" = { error := none, token := "", rankedTokenList := [] }
    ∧ ∀ tok : String, tok ≠ "" →
        (ngramSearch tr (jsCapFirst tok)).keys = [] →
        getTokenPredictionT tr tok =
          { error := some missingNgramError, token := "", rankedTokenList := [] } := by
  constructor
  · rfl
  · intro tok htok hkeys
    simp [getTokenPredictionT, htok, hkeys]

/-- Claim C10, witness. -/
theorem claim_C10_witness :
    getTokenPredictionT Trie.empty "" = { error := none, token := "", rankedTokenList := [] }
    ∧ getTokenPredictionT Trie.empty "xy" =
        { error := some missingNgramError, token := "", rankedTokenList := [] } :=
  ⟨(claim_C10_empty_token_no_error Trie.empty).1,
   (claim_C10_empty_token_no_error Trie.empty).2 "xy" (by decide) (by decide)⟩

/-- Claim C4: a query token absent from the trie and (for the Decoder) from
the embedding table yields a structured result — `token` empty (Transformer)
or `null` (Decoder), an empty `rankedTokenList`, and a populated `error`
message — and the Decoder call returns normally (`Except.ok`) instead of
throwing. -/
theorem claim_C4_missing_lookup_structured :
    (∀ (tr : Trie) (tok : String), tok ≠ "" →
        (ngramSearch tr (jsCapFirst tok)).keys = [] →
        getTokenPredictionT tr tok =
          { error := some missingNgramError, token := "", rankedTokenList := [] })
    ∧ ∀ (ctx : DecoderCtx) (tok : String),
        (lookupD ctx.model (jsCapFirst tok)).keys = [] →
        findVal ctx.embedding tok = none →
        getTokenPredictionD ctx tok =
          .ok { error := some missingEmbeddingError, token := none,
                rankedTokenList := [] } := by
  constructor
  · intro tr tok htok hkeys
    simp [getTokenPredictionT, htok, hkeys]
  · intro ctx tok hkeys hemb
    simp [getTokenPredictionD, hkeys, stableSortBy, getSingleTokenPredictionD, hemb]

/-- Claim C4, witness: the unseen token `"zzzzz"` on an untrained context. -/
theorem claim_C4_witness :
    getTokenPredictionT Trie.empty "zzzzz" =
      { error := some missingNgramError, token := "", rankedTokenList := [] }
    ∧ getTokenPredictionD ⟨Trie.empty, []⟩ "zzzzz" =
        .ok { error := some missingEmbeddingError, token := none,
              rankedTokenList := [] } :=
  ⟨claim_C4_missing_lookup_structured.1 Trie.empty "zzzzz" (by decide) (by decide),
   claim_C4_missing_lookup_structured.2 ⟨Trie.empty, []⟩ "zzzzz" (by decide) (by decide)⟩

/-- Claim C3, behaviour of the code at the failing input: with an empty trie
and `embedding = {a: {b: 1, c: 2}}`, the fallback for the query `"a"`
returns `"b"` — the continuation with the MINIMAL recorded count (the
ascending weight sort is indexed at 0) — although `"c"` is the most
frequent observed continuation, as its own ranked sample (whose top, the
last slice element, is `"c"`) shows. -/
theorem claim_C3_code_returns_least_frequent :
    getTokenPredictionD ⟨Trie.empty, [("a", [("b", 1), ("c", 2)])]⟩ "a" =
      .ok { error := none, token := some "b", rankedTokenList := ["b", "c"] }
    ∧ countOf [("a", [("b", 1), ("c", 2)])] "a" "b" = 1
    ∧ countOf [("a", [("b", 1), ("c", 2)])] "a" "c" = 2 := by
  refine ⟨by rfl, by decide, by decide⟩

theorem sliceLast_length_le {α : Type} (n : Nat) (l : List α) :
    (sliceLast n l).length ≤ n := by
  simp only [sliceLast, List.length_drop]
  omega

theorem rankedT_length_le (tr : Trie) (tok : String) :
    (getTokenPredictionT tr tok).rankedTokenList.length ≤ rankingBatchSize := by
  simp only [getTokenPredictionT]
  split
  · simp
  · split
    · exact sliceLast_length_le _ _
    · simp

theorem rankedSingle_length_le (emb : FreqTable) (tok : String) (r : DPred)
    (h : getSingleTokenPredictionD emb tok = .ok r) :
    r.rankedTokenList.length ≤ rankingBatchSizeD := by
  simp only [getSingleTokenPredictionD] at h
  split at h
  · split at h
    · exact absurd h (by simp)
    · split at h
      · obtain rfl : _ = r := by injection h
        exact sliceLast_length_le _ _
      · obtain rfl : _ = r := by injection h
        simp
  · obtain rfl : _ = r := by injection h
    simp

theorem rankedD_length_le (ctx : DecoderCtx) (tok : String) (r : DPred)
    (h : getTokenPredictionD ctx tok = .ok r) :
    r.rankedTokenList.length ≤ rankingBatchSizeD := by
  simp only [getTokenPredictionD] at h
  split at h
  · obtain rfl : _ = r := by injection h
    exact sliceLast_length_le _ _
  · split at h
    · exact absurd h (by simp)
    · rename_i single hsingle
      split at h
      · obtain rfl : _ = r := by injection h
        exact rankedSingle_length_le ctx.embedding tok single hsingle
      · obtain rfl : _ = r := by injection h
        simp

theorem seqPredD_ranked_le (ctx : DecoderCtx) (tok : String) (n : Nat) (sp : SeqPredD)
    (h : getTokenSequencePredictionD ctx tok n = .ok sp) :
    sp.rankedTokenList.length ≤ rankingBatchSizeD := by
  simp only [getTokenSequencePredictionD] at h
  split at h
  · exact absurd h (by simp)
  · rename_i kp hkp
    split at h
    · exact absurd h (by simp)
    · obtain rfl : _ = sp := by injection h
      exact rankedD_length_le ctx tok kp hkp

theorem altLoopD_length (ctx : DecoderCtx) (input : String) :
    ∀ (l : List String) (ys : List String), altLoopD ctx input l = .ok ys →
      ys.length = l.length := by
  intro l
  induction l with
  | nil =>
      intro ys h
      obtain rfl : [] = ys := by injection h
      rfl
  | cons p ps ih =>
      intro ys h
      simp only [altLoopD] at h
      split at h
      · exact absurd h (by simp)
      · split at h
        · exact absurd h (by simp)
        · rename_i others hothers
          obtain rfl : _ = ys := by injection h
          simp only [List.length_cons]
          rw [ih others hothers]

/-- Claim C5: `getCompletions` always returns `1 + |rankedTokenList|`
completions, with the ranked list bounded by the ranking batch size — 50
for the Transformer, 10 for the Decoder (whose calls can also abort on a
thrown lookup, in which case no record is returned at all). -/
theorem claim_C5_completions_length :
    (∀ (tr : Trie) (input : String),
      (getCompletionsT tr input).completions.length =
        1 + (getCompletionsT tr input).rankedTokenList.length ∧
      (getCompletionsT tr input).rankedTokenList.length ≤ rankingBatchSize)
    ∧ ∀ (ctx : DecoderCtx) (input : String),
        completionsLenOkD (getCompletionsD ctx input) := by
  constructor
  · intro tr input
    constructor
    · simp only [getCompletionsT, List.singleton_append, List.length_cons,
        List.length_map]
      omega
    · have h : (getCompletionsT tr input).rankedTokenList =
          (getTokenPredictionT tr input).rankedTokenList := rfl
      rw [h]
      exact rankedT_length_le tr input
  · intro ctx input
    cases hsp : getTokenSequencePredictionD ctx input maxResponseLength with
    | error e => simp [getCompletionsD, hsp, completionsLenOkD]
    | ok sp =>
        cases halt : altLoopD ctx input sp.rankedTokenList with
        | error e => simp [getCompletionsD, hsp, halt, completionsLenOkD]
        | ok alts =>
            have hlen := altLoopD_length ctx input sp.rankedTokenList alts halt
            have hle := seqPredD_ranked_le ctx input maxResponseLength sp hsp
            simp only [getCompletionsD, hsp, halt, completionsLenOkD, List.length_cons,
              hlen]
            exact ⟨by omega, hle⟩

/-! ## Claim C7: frequency training -/

theorem findVal_bumpInner (e : List (String × Nat)) (nx b : String) :
    findVal (bumpInner e nx) b =
      if nx = b then some (((findVal e b).getD 0) + 1) else findVal e b := by
  induction e with
  | nil =>
      simp only [bumpInner, findVal]
      by_cases h : nx = b <;> simp [h]
  | cons p rest ih =>
      obtain ⟨k, c⟩ := p
      by_cases hk : k = nx
      · subst hk
        simp only [bumpInner, if_pos rfl, findVal]
        by_cases hb : k = b
        · subst hb; simp [findVal]
        · simp [hb]
      · simp only [bumpInner, if_neg hk, findVal]
        by_cases hb : k = b
        · subst hb
          have : ¬(nx = k) := fun h => hk h.symm
          simp [this]
        · simp only [if_neg hb]
          exact ih

theorem countOf_cons (k : String) (e : List (String × Nat)) (rest : FreqTable)
    (a b : String) :
    countOf ((k, e) :: rest) a b =
      if k = a then (findVal e b).getD 0 else countOf rest a b := by
  by_cases h : k = a <;> simp [countOf, findVal, h]

theorem countOf_bumpCount (tbl : FreqTable) (tok nx a b : String) :
    countOf (bumpCount tbl tok nx) a b =
      countOf tbl a b + (if tok = a ∧ nx = b then 1 else 0) := by
  induction tbl with
  | nil =>
      simp only [bumpCount]
      rw [countOf_cons]
      by_cases ha : tok = a
      · by_cases hb : nx = b <;> simp [findVal, ha, hb, countOf]
      · simp [ha, countOf, findVal]
  | cons p rest ih =>
      obtain ⟨k, e⟩ := p
      by_cases hk : k = tok
      · simp only [bumpCount, if_pos hk]
        rw [countOf_cons, countOf_cons]
        by_cases ha : k = a
        · rw [if_pos ha, if_pos ha, findVal_bumpInner]
          have htok : tok = a := hk.symm.trans ha
          by_cases hb : nx = b
          · simp [hb, htok]
          · simp [hb, htok]
        · rw [if_neg ha, if_neg ha]
          have hcon : ¬(tok = a ∧ nx = b) := fun hh => ha (hk.trans hh.1)
          simp [hcon]
      · simp only [bumpCount, if_neg hk]
        rw [countOf_cons, countOf_cons]
        by_cases ha : k = a
        · rw [if_pos ha, if_pos ha]
          have hcon : ¬(tok = a ∧ nx = b) := fun hh => hk (ha.trans hh.1.symm)
          simp [hcon]
        · rw [if_neg ha, if_neg ha]
          exact ih

theorem countOf_decoderStep (tbl : FreqTable) (t : String) (nextTok : Option String)
    (a b : String) :
    countOf (decoderTrainStep tbl t nextTok) a b =
      countOf tbl a b + (if decoderCountsAt a b (t, nextTok) then 1 else 0) := by
  simp only [decoderTrainStep, decoderCountsAt]
  by_cases h1 : containsPunctMark t
  · cases nextTok <;> simp [h1]
  · by_cases h2 : containsNonAlnum t
    · cases nextTok <;> simp [h1, h2]
    · cases nextTok with
      | none => simp [h1, h2]
      | some nx =>
          by_cases h3 : nx = ""
          · simp [h1, h2, h3]
          · by_cases h4 : (nx.data.head?.map isAsciiUpper).getD false = true
            · simp [h1, h2, h3, h4]
            · simp only [if_neg h1, if_neg h2, if_neg h3, if_neg h4]
              rw [countOf_bumpCount]
              by_cases h5 : t = a
              · by_cases h6 : stripPunct nx = b
                · subst h5; subst h6; simp [h1, h2, h3, h4]
                · simp [h1, h2, h3, h4, h5, h6]
              · simp [h1, h2, h3, h4, h5]

theorem countOf_transformerStep (tbl : FreqTable) (t : String) (nextTok : Option String)
    (a b : String) :
    countOf (transformerFreqStep tbl t nextTok) a b =
      countOf tbl a b + (if transformerCountsAt a b (t, nextTok) then 1 else 0) := by
  simp only [transformerFreqStep, transformerCountsAt]
  by_cases h0 : t = ""
  · cases nextTok <;> simp [h0]
  · by_cases h1 : containsPunctMark t
    · cases nextTok <;> simp [h0, h1]
    · by_cases h2 : containsNonAlnum t
      · cases nextTok <;> simp [h0, h1, h2]
      · cases nextTok with
        | none => simp [h0, h1, h2]
        | some nx =>
            by_cases h3 : nx = ""
            · simp [h0, h1, h2, h3]
            · simp only [if_neg h0, if_neg h1, if_neg h2, if_neg h3]
              rw [countOf_bumpCount]
              by_cases h5 : t = a
              · by_cases h6 : nx = b
                · subst h5; subst h6; simp [h0, h1, h2, h3]
                · simp [h0, h1, h2, h3, h5, h6]
              · simp [h0, h1, h2, h3, h5]

theorem countOf_decoderTrain (toks : List String) :
    ∀ (tbl : FreqTable) (a b : String),
      countOf (decoderTrain tbl toks) a b =
        countOf tbl a b + (pairsOf toks).countP (decoderCountsAt a b) := by
  induction toks with
  | nil => intro tbl a b; simp [decoderTrain, pairsOf]
  | cons t rest ih =>
      intro tbl a b
      simp only [decoderTrain, pairsOf, List.countP_cons]
      rw [ih, countOf_decoderStep]
      omega

theorem countOf_transformerTrain (toks : List String) :
    ∀ (tbl : FreqTable) (a b : String),
      countOf (transformerFreqTrain tbl toks) a b =
        countOf tbl a b + (pairsOf toks).countP (transformerCountsAt a b) := by
  induction toks with
  | nil => intro tbl a b; simp [transformerFreqTrain, pairsOf]
  | cons t rest ih =>
      intro tbl a b
      simp only [transformerFreqTrain, pairsOf, List.countP_cons]
      rw [ih, countOf_transformerStep]
      omega

/-- Claim C7 (amended): frequency training scans every position without ever
terminating early or erroring, and the count of `(a, b)` grows by exactly
the number of positions that contribute it; but beyond the claim's three
skip conditions (punctuation-matching token, non-alphanumeric token, missing
next token) a position is also skipped when the next token is EMPTY, when —
in the Decoder — the next token begins with an uppercase letter, and when —
in the Transformer — the token itself is empty, and the Decoder strips
punctuation from the next token before using it as a key. -/
theorem claim_C7_amended_training_counts (toks : List String) (tbl : FreqTable)
    (a b : String) :
    countOf (decoderTrain tbl toks) a b =
      countOf tbl a b + (pairsOf toks).countP (decoderCountsAt a b)
    ∧ countOf (transformerFreqTrain tbl toks) a b =
        countOf tbl a b + (pairsOf toks).countP (transformerCountsAt a b) :=
  ⟨countOf_decoderTrain toks tbl a b, countOf_transformerTrain toks tbl a b⟩

/-- Claim C7, counterexample: on the stream `["hello", "The"]` the claim's
algorithm records `table[hello][The] = 1` (no skip condition holds at
position 0), but the Decoder's trainer skips the position because the next
token starts with an uppercase letter; on `["", "x"]` the claim's algorithm
records `table[""][x] = 1` (the empty token matches neither pattern), but
the Transformer's trainer skips the falsy token. -/
theorem claim_C7_counterexample :
    (countOf (decoderTrain [] ["hello", "The"]) "hello" "The" = 0 ∧
      countOf (claimC7Train [] ["hello", "The"]) "hello" "The" = 1) ∧
    (countOf (transformerFreqTrain [] ["", "x"]) "" "x" = 0 ∧
      countOf (claimC7Train [] ["", "x"]) "" "x" = 1) := by
  refine ⟨⟨by decide, by decide⟩, by decide, by decide⟩

/-! ## Claim C6: sequence prediction -/

theorem dedupAux_sublist {α : Type} [DecidableEq α] :
    ∀ (l seen : List α), List.Sublist (dedupAux seen l) l := by
  intro l
  induction l with
  | nil => intro seen; simp [dedupAux]
  | cons x xs ih =>
      intro seen
      simp only [dedupAux]
      split
      · exact (ih seen).trans (List.sublist_cons_self x xs)
      · exact List.Sublist.cons₂ x (ih (seen ++ [x]))

theorem not_mem_seen_of_mem_dedupAux {α : Type} [DecidableEq α] :
    ∀ (l seen : List α) (a : α), a ∈ dedupAux seen l → a ∉ seen := by
  intro l
  induction l with
  | nil => intro seen a h; simp [dedupAux] at h
  | cons x xs ih =>
      intro seen a h
      simp only [dedupAux] at h
      split at h
      · exact ih seen a h
      · rename_i hx
        rcases List.mem_cons.mp h with rfl | hmem
        · intro hc
          exact hx (List.elem_iff.mpr hc)
        · intro hc
          exact ih (seen ++ [x]) a hmem (List.mem_append_left _ hc)

theorem dedupAux_nodup {α : Type} [DecidableEq α] :
    ∀ (l seen : List α), (dedupAux seen l).Nodup := by
  intro l
  induction l with
  | nil => intro seen; simp [dedupAux]
  | cons x xs ih =>
      intro seen
      simp only [dedupAux]
      split
      · exact ih seen
      · refine List.Nodup.cons ?_ (ih (seen ++ [x]))
        intro hmem
        exact (not_mem_seen_of_mem_dedupAux xs (seen ++ [x]) x hmem)
          (List.mem_append_right _ (List.mem_singleton.mpr rfl))

theorem mem_dedupAux_of_mem {α : Type} [DecidableEq α] :
    ∀ (l seen : List α) (a : α), a ∈ l → a ∉ seen → a ∈ dedupAux seen l := by
  intro l
  induction l with
  | nil => intro seen a h; simp at h
  | cons x xs ih =>
      intro seen a hmem hnot
      simp only [dedupAux]
      split
      · rename_i hx
        rcases List.mem_cons.mp hmem with rfl | hmem2
        · exact absurd (List.elem_iff.mp hx) hnot
        · exact ih seen a hmem2 hnot
      · by_cases hax : a = x
        · subst hax; exact List.mem_cons_self a _
        · rcases List.mem_cons.mp hmem with rfl | hmem2
          · exact absurd rfl hax
          · refine List.mem_cons_of_mem x (ih (seen ++ [x]) a hmem2 ?_)
            intro hc
            rcases List.mem_append.mp hc with hc2 | hc2
            · exact hnot hc2
            · exact hax (List.mem_singleton.mp hc2)

theorem seqLoopT_calls (tr : Trie) :
    ∀ (n : Nat) (res : String) (seq : List String) (c : Nat),
      (seqLoopT tr n res seq c).2.2 = c + n := by
  intro n
  induction n with
  | zero => intro res seq c; simp [seqLoopT]
  | succ n ih =>
      intro res seq c
      simp only [seqLoopT]
      split
      · rw [ih]; omega
      · rw [ih]; omega

/-- Claim C6: for every seed input and requested length `n`, the
Transformer's `getTokenSequencePrediction` loop calls `getTokenPrediction`
EXACTLY `n` times — it never exits early, duplicate predictions or not —
and the returned completion is the trimmed space-join of the accumulated
predicted tokens with duplicates removed: the deduplicated list is
duplicate-free, is a subsequence of the accumulated tokens (so
first-occurrence order is preserved), and retains every accumulated
token. -/
theorem claim_C6_sequence_loop (tr : Trie) (input : String) (n : Nat) :
    (seqLoopT tr n input [] 0).2.2 = n
    ∧ (getTokenSequencePredictionT tr input n).completion =
        jsTrim (joinSp (dedupFirst (seqLoopT tr n input [] 0).2.1))
    ∧ (dedupFirst (seqLoopT tr n input [] 0).2.1).Nodup
    ∧ List.Sublist (dedupFirst (seqLoopT tr n input [] 0).2.1) (seqLoopT tr n input [] 0).2.1
    ∧ ∀ a ∈ (seqLoopT tr n input [] 0).2.1,
        a ∈ dedupFirst (seqLoopT tr n input [] 0).2.1 := by
  refine ⟨by simpa using seqLoopT_calls tr n input [] 0, rfl,
    dedupAux_nodup _ [], dedupAux_sublist _ [], ?_⟩
  intro a ha
  exact mem_dedupAux_of_mem _ [] a ha (List.not_mem_nil a)

/-- Claim C6, witness: a context in which the first iteration predicts a
token and the second finds nothing — the loop still runs both iterations,
and the predicted token survives deduplication. -/
theorem claim_C6_witness :
    (seqLoopT (createContextTrie Trie.empty "Aa bb") 2 "aa" [] 0).2.2 = 2 ∧
    "bb" ∈ (seqLoopT (createContextTrie Trie.empty "Aa bb") 2 "aa" [] 0).2.1 ∧
    "bb" ∈ dedupFirst (seqLoopT (createContextTrie Trie.empty "Aa bb") 2 "aa" [] 0).2.1 :=
  ⟨(claim_C6_sequence_loop (createContextTrie Trie.empty "Aa bb") "aa" 2).1,
   by decide,
   (claim_C6_sequence_loop (createContextTrie Trie.empty "Aa bb") "aa" 2).2.2.2.2
     "bb" (by decide)⟩

/-! ## Claim C8: embedding components lie in the unit interval -/

theorem length_insSortedBy {α : Type} (keep : α → α → Bool) :
    ∀ (l : List α) (x : α), (insSortedBy keep l x).length = l.length + 1 := by
  intro l
  induction l with
  | nil => intro x; rfl
  | cons y ys ih =>
      intro x
      simp only [insSortedBy]
      split
      · simp [ih]
      · simp

theorem length_foldl_insSortedBy {α : Type} (keep : α → α → Bool) :
    ∀ (l acc : List α), (l.foldl (insSortedBy keep) acc).length = acc.length + l.length := by
  intro l
  induction l with
  | nil => intro acc; rfl
  | cons x xs ih =>
      intro acc
      simp only [List.foldl_cons]
      rw [ih, length_insSortedBy]
      simp only [List.length_cons]
      omega

theorem stableSortBy_ne_nil {α : Type} (keep : α → α → Bool) {l : List α}
    (h : l ≠ []) : stableSortBy keep l ≠ [] := by
  intro h2
  have := length_foldl_insSortedBy keep l []
  rw [show l.foldl (insSortedBy keep) [] = stableSortBy keep l from rfl, h2] at this
  simp only [List.length_nil] at this
  exact h (List.length_eq_zero.mp (by omega))

theorem mem_insSortedBy {α : Type} (keep : α → α → Bool) :
    ∀ (l : List α) (x a : α), a ∈ insSortedBy keep l x → a = x ∨ a ∈ l := by
  intro l
  induction l with
  | nil => intro x a h; simpa [insSortedBy] using h
  | cons y ys ih =>
      intro x a h
      simp only [insSortedBy] at h
      split at h
      · rcases List.mem_cons.mp h with rfl | h2
        · exact Or.inr (List.mem_cons_self _ _)
        · rcases ih x a h2 with h3 | h3
          · exact Or.inl h3
          · exact Or.inr (List.mem_cons_of_mem _ h3)
      · rcases List.mem_cons.mp h with rfl | h2
        · exact Or.inl rfl
        · exact Or.inr h2

theorem mem_foldl_insSortedBy {α : Type} (keep : α → α → Bool) :
    ∀ (l acc : List α) (a : α), a ∈ l.foldl (insSortedBy keep) acc →
      a ∈ acc ∨ a ∈ l := by
  intro l
  induction l with
  | nil => intro acc a h; exact Or.inl h
  | cons x xs ih =>
      intro acc a h
      simp only [List.foldl_cons] at h
      rcases ih (insSortedBy keep acc x) a h with h2 | h2
      · rcases mem_insSortedBy keep acc x a h2 with rfl | h3
        · exact Or.inr (List.mem_cons_self _ _)
        · exact Or.inl h3
      · exact Or.inr (List.mem_cons_of_mem _ h2)

theorem mem_stableSortBy {α : Type} (keep : α → α → Bool) {l : List α} {a : α}
    (h : a ∈ stableSortBy keep l) : a ∈ l := by
  rcases mem_foldl_insSortedBy keep l [] a h with h2 | h2
  · simp at h2
  · exact h2

theorem getLastQ_mem {α : Type} : ∀ (l : List α) (a : α), l.getLast? = some a → a ∈ l := by
  intro l
  induction l with
  | nil => intro a h; simp at h
  | cons x xs ih =>
      intro a h
      cases xs with
      | nil => simp [List.getLast?] at h; simp [h]
      | cons y ys =>
          rw [List.getLast?_cons_cons] at h
          exact List.mem_cons_of_mem x (ih a h)

theorem findVal_mem {β : Type} :
    ∀ (l : List (String × β)) (k : String) (v : β), findVal l k = some v → (k, v) ∈ l := by
  intro l
  induction l with
  | nil => intro k v h; simp [findVal] at h
  | cons p rest ih =>
      intro k v h
      obtain ⟨kp, w⟩ := p
      simp only [findVal] at h
      split at h
      · rename_i hk
        obtain rfl : w = v := by injection h
        subst hk
        exact List.mem_cons_self _ _
      · exact List.mem_cons_of_mem _ (ih k v h)

theorem findVal_isSome_of_mem_keys {β : Type} :
    ∀ (l : List (String × β)) (k : String), k ∈ l.map Prod.fst →
      ∃ v, findVal l k = some v := by
  intro l
  induction l with
  | nil => intro k h; simp at h
  | cons p rest ih =>
      intro k h
      obtain ⟨kp, w⟩ := p
      by_cases hk : kp = k
      · exact ⟨w, by simp [findVal, hk]⟩
      · simp only [List.map_cons, List.mem_cons] at h
        rcases h with rfl | h2
        · exact absurd rfl hk
        · obtain ⟨v, hv⟩ := ih k h2
          exact ⟨v, by simp [findVal, hk, hv]⟩

theorem jsClamp_nonneg (v : ℚ) : 0 ≤ jsMax 0 (jsMin 1 v) := by
  by_cases h1 : (1 : ℚ) ≤ v
  · simp [jsMin, jsMax, h1]
  · simp only [jsMin, if_neg h1, jsMax]
    by_cases h2 : (0 : ℚ) ≤ v
    · simp [h2]
    · simp [h2]

theorem jsClamp_le_one (v : ℚ) : jsMax 0 (jsMin 1 v) ≤ 1 := by
  by_cases h1 : (1 : ℚ) ≤ v
  · simp [jsMin, jsMax, h1]
  · simp only [jsMin, if_neg h1, jsMax]
    by_cases h2 : (0 : ℚ) ≤ v
    · simp only [if_pos h2]
      linarith
    · simp only [if_neg h2]
      norm_num

theorem freq_isSome_of_wf {bg : FreqTable} (hw : wfBigrams bg) {token : String}
    {e : List (String × Nat)} (he : findVal bg token = some e) :
    ∃ qf : ℚ, getMostFrequentNextTokenValue bg token = some qf := by
  have hene : e ≠ [] := (hw (token, e) (findVal_mem bg token e he)).1
  have hkeysne : e.map Prod.fst ≠ [] := by
    simpa using hene
  have hsorted : stableSortBy
      (fun a b => (findVal e a).getD 0 ≤ (findVal e b).getD 0) (e.map Prod.fst) ≠ [] :=
    stableSortBy_ne_nil _ hkeysne
  obtain ⟨k, hk⟩ := Option.isSome_iff_exists.mp (List.getLast?_isSome.mpr hsorted)
  have hkmem : k ∈ e.map Prod.fst := mem_stableSortBy _ (getLastQ_mem _ k hk)
  obtain ⟨cnt, hcnt⟩ := findVal_isSome_of_mem_keys e k hkmem
  refine ⟨(cnt : ℚ), ?_⟩
  simp [getMostFrequentNextTokenValue, getMostFrequentNextToken, he, hk, hcnt]

theorem maxTokenFreq_of_wf {bg : FreqTable} (hw : wfBigrams bg) {k : String}
    (hk : k ∈ bg.map Prod.fst) :
    ∃ q : ℚ, getMaxTokenFrequency bg k = some q ∧ 1 ≤ q := by
  obtain ⟨e, he⟩ := findVal_isSome_of_mem_keys bg k hk
  have hwf := hw (k, e) (findVal_mem bg k e he)
  have hvalsne : e.map (fun p => ((p.2 : ℚ))) ≠ [] := by simpa using hwf.1
  have hsorted : stableSortBy (fun a b => a ≤ b) (e.map (fun p => ((p.2 : ℚ)))) ≠ [] :=
    stableSortBy_ne_nil _ hvalsne
  obtain ⟨m, hm⟩ := Option.isSome_iff_exists.mp (List.getLast?_isSome.mpr hsorted)
  have hmmem : m ∈ e.map (fun p => ((p.2 : ℚ))) := mem_stableSortBy _ (getLastQ_mem _ m hm)
  obtain ⟨p, hp, rfl⟩ := List.mem_map.mp hmmem
  refine ⟨(p.2 : ℚ), ?_, ?_⟩
  · simp only [getMaxTokenFrequency, he]
    exact hm
  · exact_mod_cast hwf.2 p hp

theorem maxFrequency_of_wf {bg : FreqTable} (hw : wfBigrams bg) (hne : bg ≠ []) :
    ∃ q : ℚ, getMaxFrequency bg = some q ∧ 1 ≤ q := by
  have hvals : ∀ v ∈ bg.map (fun e2 => getMaxTokenFrequency bg e2.1),
      ∃ q : ℚ, v = some q ∧ 1 ≤ q := by
    intro v hv
    obtain ⟨e2, he2, rfl⟩ := List.mem_map.mp hv
    exact maxTokenFreq_of_wf hw (List.mem_map_of_mem Prod.fst he2)
  have hnone : (bg.map (fun e2 => getMaxTokenFrequency bg e2.1)).any
      (fun v => v.isNone) = false := by
    rw [List.any_eq_false]
    intro v hv
    obtain ⟨q, rfl, _⟩ := hvals v hv
    simp
  have hfne : (bg.map (fun e2 => getMaxTokenFrequency bg e2.1)).filterMap id ≠ [] := by
    obtain ⟨e0, rest, rfl⟩ : ∃ e0 rest, bg = e0 :: rest := by
      cases bg with
      | nil => exact absurd rfl hne
      | cons e0 rest => exact ⟨e0, rest, rfl⟩
    obtain ⟨q, hq, _⟩ := hvals (getMaxTokenFrequency (e0 :: rest) e0.1)
      (List.mem_map_of_mem _ (List.mem_cons_self _ _))
    exact List.ne_nil_of_mem (List.mem_filterMap.mpr
      ⟨getMaxTokenFrequency (e0 :: rest) e0.1,
       List.mem_map_of_mem _ (List.mem_cons_self _ _), by rw [hq]; rfl⟩)
  have hsorted : stableSortBy (fun a b => a ≤ b)
      ((bg.map (fun e2 => getMaxTokenFrequency bg e2.1)).filterMap id) ≠ [] :=
    stableSortBy_ne_nil _ hfne
  obtain ⟨q, hq⟩ := Option.isSome_iff_exists.mp (List.getLast?_isSome.mpr hsorted)
  have hqmem := mem_stableSortBy _ (getLastQ_mem _ q hq)
  obtain ⟨v, hvmem, hvq⟩ := List.mem_filterMap.mp hqmem
  obtain ⟨q2, rfl, hq2⟩ := hvals v hvmem
  obtain rfl : q2 = q := by simpa using hvq
  refine ⟨q2, ?_, hq2⟩
  simp only [getMaxFrequency, hnone]
  simpa using hq

theorem maxPrevalence_of_wf {bg : FreqTable} (hw : wfBigrams bg) (hne : bg ≠ []) :
    ∃ n : Nat, getMaxTokenPrevalence bg = some n ∧ 1 ≤ n := by
  have hmapne : bg.map (fun e2 => getTokenPrevalence bg e2.1) ≠ [] := by
    simpa using hne
  have hsorted : stableSortBy (fun a b => a ≤ b)
      (bg.map (fun e2 => getTokenPrevalence bg e2.1)) ≠ [] :=
    stableSortBy_ne_nil _ hmapne
  obtain ⟨n, hn⟩ := Option.isSome_iff_exists.mp (List.getLast?_isSome.mpr hsorted)
  have hnmem := mem_stableSortBy _ (getLastQ_mem _ n hn)
  obtain ⟨e2, he2, rfl⟩ := List.mem_map.mp hnmem
  refine ⟨_, by simpa [getMaxTokenPrevalence] using hn, ?_⟩
  obtain ⟨e3, he3⟩ := findVal_isSome_of_mem_keys bg e2.1 (List.mem_map_of_mem Prod.fst he2)
  have hwf3 := hw (e2.1, e3) (findVal_mem bg e2.1 e3 he3)
  simp only [getTokenPrevalence, he3]
  cases e3 with
  | nil => exact absurd rfl hwf3.1
  | cons p ps => simp

/-- Claim C8: under a well-formed bigram table (non-empty entries, counts at
least one — what training produces), every component of every embedding
vector `toVecs` returns is a defined number (never `NaN`) in `[0, 1]`; in
particular a vowel-less token's vowel components come out as the clamped
sentinel `-1 ↦ 0` rather than as an exception. -/
theorem claim_C8_embedding_components_unit (bg : FreqTable) (hw : wfBigrams bg)
    (seq : String) (v : List (Option ℚ)) (c : Option ℚ)
    (hv : v ∈ toVecs bg seq) (hc : c ∈ v) :
    ∃ q : ℚ, c = some q ∧ 0 ≤ q ∧ q ≤ 1 := by
  obtain ⟨token, htok, hfv⟩ := List.mem_filterMap.mp hv
  cases he : findVal bg token with
  | none => rw [he] at hfv; simp at hfv
  | some e =>
      rw [he] at hfv
      obtain rfl : embedFor bg token = v := by simpa using hfv
      have hbgne : bg ≠ [] := by
        intro h
        rw [h] at he
        simp [findVal] at he
      obtain ⟨qf, hqf⟩ := freq_isSome_of_wf hw he
      obtain ⟨qm, hqm, hqm1⟩ := maxFrequency_of_wf hw hbgne
      obtain ⟨np, hnp, hnp1⟩ := maxPrevalence_of_wf hw hbgne
      simp only [embedFor] at hc
      obtain ⟨p, hp, rfl⟩ := List.mem_map.mp hc
      have hmem := List.of_mem_zip hp
      obtain ⟨x, hx⟩ : ∃ x : ℚ, p.1 = some x := by
        have h1 := hmem.1
        simp only [List.mem_cons, List.not_mem_nil, or_false] at h1
        rcases h1 with h | h | h | h | h | h | h | h | h
        all_goals first
          | exact ⟨_, h⟩
          | exact ⟨qf, h.trans hqf⟩
      obtain ⟨y, hy, hy0⟩ : ∃ y : ℚ, p.2 = some y ∧ y ≠ 0 := by
        have h2 := hmem.2
        simp only [List.mem_cons, List.not_mem_nil, or_false] at h2
        rcases h2 with h | h | h | h | h | h | h | h | h
        · refine ⟨_, h, ?_⟩
          norm_num [posSpecificityList]
        · exact ⟨25, h, by norm_num⟩
        · exact ⟨25, h, by norm_num⟩
        · exact ⟨10, h, by norm_num⟩
        · exact ⟨25, h, by norm_num⟩
        · exact ⟨25, h, by norm_num⟩
        · exact ⟨qm, h.trans hqm, by linarith⟩
        · refine ⟨(np : ℚ), by rw [h, hnp]; rfl, ?_⟩
          have : (1 : ℚ) ≤ (np : ℚ) := by exact_mod_cast hnp1
          linarith
        · exact ⟨20, h, by norm_num⟩
      refine ⟨jsMax 0 (jsMin 1 (x / y)), ?_, jsClamp_nonneg _, jsClamp_le_one _⟩
      rw [hx, hy]
      simp [divJS, hy0, clampJS]

theorem getD_mem {α : Type} :
    ∀ (l : List α) (n : Nat) (d : α), n < l.length → l.getD n d ∈ l := by
  intro l
  induction l with
  | nil => intro n d h; simp at h
  | cons x xs ih =>
      intro n d h
      cases n with
      | zero => exact List.mem_cons_self _ _
      | succ n =>
          simp only [List.getD_cons_succ]
          exact List.mem_cons_of_mem _ (ih n d (by simpa using h))

/-- Claim C8, witness: the single-pair table `{bcd: {xy: 1}}` is well
formed, and the vowel-less token `bcd` — whose first-vowel sub-computation
is undefined — gets component 5 of its vector as the clamped sentinel
`-1 ↦ 0`, a defined value inside `[0, 1]`, rather than an exception. -/
theorem claim_C8_witness :
    wfBigrams [("bcd", [("xy", 1)])] ∧
    (embedFor [("bcd", [("xy", 1)])] "bcd").getD 5 none = some 0 ∧
    ∃ q : ℚ, (embedFor [("bcd", [("xy", 1)])] "bcd").getD 5 none = some q ∧
      0 ≤ q ∧ q ≤ 1 := by
  have hwf : wfBigrams [("bcd", [("xy", 1)])] := by decide
  have htoks : tokenizeSequence "bcd" = ["bcd"] := by decide
  have hv : embedFor [("bcd", [("xy", 1)])] "bcd" ∈
      toVecs [("bcd", [("xy", 1)])] "bcd" := by
    have h : toVecs [("bcd", [("xy", 1)])] "bcd" =
        [embedFor [("bcd", [("xy", 1)])] "bcd"] := by
      simp [toVecs, htoks, findVal]
    rw [h]
    exact List.mem_singleton.mpr rfl
  have hlen : (embedFor [("bcd", [("xy", 1)])] "bcd").length = 9 := by simp [embedFor]
  have hc : (embedFor [("bcd", [("xy", 1)])] "bcd").getD 5 none ∈
      embedFor [("bcd", [("xy", 1)])] "bcd" :=
    getD_mem _ 5 none (by rw [hlen]; norm_num)
  have hval : (embedFor [("bcd", [("xy", 1)])] "bcd").getD 5 none = some 0 := by
    have h1 : getFirstVowel "bcd" = none := by decide
    have h2 : jsIndexOfChar alphabetLower none = -1 := by decide
    simp [embedFor, h1, h2]
    norm_num [clampJS, divJS, jsMin, jsMax]
  exact ⟨hwf, hval,
    claim_C8_embedding_components_unit [("bcd", [("xy", 1)])] hwf "bcd"
      (embedFor [("bcd", [("xy", 1)])] "bcd")
      ((embedFor [("bcd", [("xy", 1)])] "bcd").getD 5 none) hv hc⟩

/-! ### Claim C9: idempotence of the text normalizers -/

theorem noPairB_tail {bad : Char → Char → Bool} {c : Char} {l : List Char}
    (h : noPairB bad (c :: l) = true) : noPairB bad l = true := by
  cases l with
  | nil => rfl
  | cons b r =>
      simp only [noPairB, Bool.and_eq_true] at h
      exact h.2

theorem noPairB_head {bad : Char → Char → Bool} {a b : Char} {l : List Char}
    (h : noPairB bad (a :: b :: l) = true) : bad a b = false := by
  simp only [noPairB, Bool.and_eq_true, Bool.not_eq_true'] at h
  exact h.1

theorem strMk_data (s : String) : String.mk s.data = s := rfl

theorem capFirst_fixed (s : String) (h : headPlain s.data = true) :
    jsCapFirst s = s := by
  unfold jsCapFirst
  cases hd : s.data with
  | nil => rfl
  | cons c cs =>
      rw [hd] at h
      simp only [headPlain, Bool.and_eq_true, decide_eq_true_eq] at h
      show String.mk (c.toUpper :: cs) = s
      rw [h.1, ← hd]

theorem splitLU_id : ∀ l : List Char,
    noPairB (fun a b => isAsciiLower a && isAsciiUpper b) l = true →
    splitLU l = l := by
  intro l
  induction l with
  | nil => intro _; rfl
  | cons a rest ih =>
      cases rest with
      | nil => intro _; rfl
      | cons b rest2 =>
          intro h
          have hb : (isAsciiLower a && isAsciiUpper b) = false := noPairB_head h
          simp only [splitLU, hb, Bool.false_eq_true, if_false]
          rw [ih (noPairB_tail h)]

theorem replNL_id : ∀ l : List Char,
    l.all (fun c => !isStripChar c) = true → replNL l = l := by
  intro l
  induction l with
  | nil => intro _; rfl
  | cons c rest ih =>
      intro h
      simp only [List.all_cons, Bool.and_eq_true, Bool.not_eq_true'] at h
      have hc : ¬ c = '\n' := fun he => by
        rw [he] at h
        exact absurd h.1 (by decide)
      simp only [replNL, List.map_cons, if_neg hc]
      have hr := ih h.2
      simp only [replNL] at hr
      rw [hr]

theorem fmt0m_id : ∀ l : List Char,
    l.all (fun c => !isStripChar c) = true →
    noPairB (fun a b => a = '.' && isJsSpace b) l = true →
    fmt0m false l = l := by
  intro l
  induction l with
  | nil => intro _ _; rfl
  | cons c rest ih =>
      intro hs hp
      simp only [List.all_cons, Bool.and_eq_true, Bool.not_eq_true'] at hs
      have h2 : (c = '.' && (rest.head?.map isJsSpace).getD false) = false := by
        cases rest with
        | nil => simp
        | cons b r =>
            have hb : (c = '.' && isJsSpace b) = false := noPairB_head hp
            simpa using hb
      have e1 : ¬ c = '\n' := fun he => by
        rw [he] at hs; exact absurd hs.1 (by decide)
      have e2 : ¬ c = '\r' := fun he => by
        rw [he] at hs; exact absurd hs.1 (by decide)
      have e3 : ¬ c = Char.ofNat 0 := fun he => by
        rw [he] at hs; exact absurd hs.1 (by decide)
      have h3 : (c = '\n' || c = '\r' || c = Char.ofNat 0) = false := by
        simp [e1, e2, e3]
      simp only [fmt0m, Bool.false_and, h2, h3, Bool.false_eq_true, if_false]
      rw [ih hs.2 (noPairB_tail hp)]

theorem fmt1m_id : ∀ l : List Char, noDashPat l = true → fmt1m 0 l = l := by
  intro l
  induction l with
  | nil => intro _; rfl
  | cons c rest ih =>
      intro h
      simp only [noDashPat, Bool.and_eq_true] at h
      by_cases hc : isJsSpace c = true
      · rw [if_pos hc] at h
        have hcond :
            ((rest.takeWhile (fun d => d = '-')).length ≠ 0 &&
              ((rest.drop (rest.takeWhile (fun d => d = '-')).length).head?.map
                isJsSpace).getD false) = false := by
          have hnot := h.1
          cases hX : ((rest.takeWhile (fun d => d = '-')).length ≠ 0 &&
              ((rest.drop (rest.takeWhile (fun d => d = '-')).length).head?.map
                isJsSpace).getD false) with
          | false => rfl
          | true =>
              rw [hX] at hnot
              exact absurd hnot (by decide)
        simp only [fmt1m, hc, if_true, hcond, Bool.false_eq_true, if_false]
        rw [ih h.2]
      · simp only [fmt1m, hc, Bool.false_eq_true, if_false]
        rw [ih h.2]

theorem fmt2_id : ∀ l : List Char,
    l.all (fun c => !isStripChar c) = true → fmt2 l = l := by
  intro l
  induction l with
  | nil => intro _; rfl
  | cons c rest ih =>
      intro h
      simp only [List.all_cons, Bool.and_eq_true, Bool.not_eq_true'] at h
      have h1 : ¬ c = '©' := fun he => by
        rw [he] at h; exact absurd h.1 (by decide)
      have h2 : ¬ c = '|' := fun he => by
        rw [he] at h; exact absurd h.1 (by decide)
      have hc : (c = '©' || c = '|') = false := by simp [h1, h2]
      cases rest with
      | nil => simp only [fmt2, hc, Bool.false_eq_true, if_false]
      | cons d rest2 =>
          simp only [fmt2, hc, Bool.false_eq_true, if_false]
          rw [ih h.2]

theorem fmt3_id : ∀ l : List Char,
    l.all (fun c => !isStripChar c) = true → fmt3 l = l := by
  intro l
  induction l with
  | nil => intro _; rfl
  | cons c rest ih =>
      intro h
      simp only [List.all_cons, Bool.and_eq_true, Bool.not_eq_true'] at h
      have hc : (c = '!' || c = '(' || c = '–' || c = '?' || c = '$' || c = '”' ||
          c = '“' || c = '…') = false := by
        cases hb : (c = '!' || c = '(' || c = '–' || c = '?' || c = '$' || c = '”' ||
            c = '“' || c = '…') with
        | false => rfl
        | true =>
            exfalso
            simp only [Bool.or_eq_true, decide_eq_true_eq] at hb
            rcases hb with (((((((he | he) | he) | he) | he) | he) | he) | he) <;>
              rw [he] at h <;> exact absurd h.1 (by decide)
      simp only [fmt3, List.map_cons, hc, Bool.false_eq_true, if_false]
      have hr := ih h.2
      simp only [fmt3] at hr
      rw [hr]

theorem collWSm_id : ∀ l : List Char,
    noPairB (fun a b => isJsSpace a && isJsSpace b) l = true →
    collWSm false l = l := by
  intro l
  induction l with
  | nil => intro _; rfl
  | cons c rest ih =>
      intro h
      have h2 : (isJsSpace c && (rest.head?.map isJsSpace).getD false) = false := by
        cases rest with
        | nil => simp
        | cons b r =>
            have hb : (isJsSpace c && isJsSpace b) = false := noPairB_head h
            simpa using hb
      simp only [collWSm, Bool.false_and, h2, Bool.false_eq_true, if_false]
      rw [ih (noPairB_tail h)]

theorem fmt4_id : ∀ l : List Char, headPlain l = true →
    noPairB (fun a b => isJsSpace a && isJsSpace b) l = true → fmt4 l = l := by
  intro l
  cases l with
  | nil => intro _ _; rfl
  | cons c rest =>
      intro hh hp
      simp only [headPlain, Bool.and_eq_true] at hh
      have h1 : (isJsSpace c && (rest.head?.map isJsSpace).getD false) = false := by
        cases rest with
        | nil => simp
        | cons b r =>
            have hb : (isJsSpace c && isJsSpace b) = false := noPairB_head hp
            simpa using hb
      simp only [fmt4, h1, Bool.false_eq_true, if_false]
      by_cases hc : isJsSpace c = true
      · have hsp : c = ' ' := by
          have h2 := hh.2
          simp only [Bool.or_eq_true, Bool.not_eq_true', decide_eq_true_eq] at h2
          rcases h2 with h' | h'
          · rw [hc] at h'
            exact absurd h' (by decide)
          · exact h'
        rw [if_pos hc, collWSm_id rest (noPairB_tail hp), hsp]
      · rw [if_neg hc, collWSm_id rest (noPairB_tail hp)]

theorem isPlainL_parts {l : List Char} (h : isPlainL l = true) :
    headPlain l = true ∧ l.all (fun c => !isStripChar c) = true ∧
    noPairB (fun a b => isAsciiLower a && isAsciiUpper b) l = true ∧
    noPairB (fun a b => a = '.' && isJsSpace b) l = true ∧
    noPairB (fun a b => isJsSpace a && isJsSpace b) l = true ∧
    noDashPat l = true := by
  simp only [isPlainL, Bool.and_eq_true] at h
  exact ⟨h.1.1.1.1.1, h.1.1.1.1.2, h.1.1.1.2, h.1.1.2, h.1.2, h.2⟩

theorem toPlainText_fixed (s : String) (h : isPlainStr s = true) :
    toPlainTextJS s = s := by
  obtain ⟨hh, hs, hlu, hdot, hws, hdash⟩ :=
    isPlainL_parts (show isPlainL s.data = true from h)
  unfold toPlainTextJS fmt0 fmt1
  rw [capFirst_fixed s hh, splitLU_id _ hlu, replNL_id _ hs, fmt0m_id _ hs hdot,
    fmt1m_id _ hdash, fmt2_id _ hs, fmt3_id _ hs, fmt4_id _ hh hws]

theorem join_split (sep : Char) : ∀ l : List Char,
    joinCh sep (splitCh sep l) = l := by
  intro l
  induction l with
  | nil => rfl
  | cons c rest ih =>
      by_cases hc : c = sep
      · simp only [splitCh, if_pos hc]
        cases hsp : splitCh sep rest with
        | nil => exact absurd hsp (splitCh_ne_nil sep rest)
        | cons t0 ts =>
            rw [hsp] at ih
            show ([] : List Char) ++ sep :: joinCh sep (t0 :: ts) = c :: rest
            rw [List.nil_append, ih, hc]
      · simp only [splitCh, if_neg hc]
        cases hsp : splitCh sep rest with
        | nil => exact absurd hsp (splitCh_ne_nil sep rest)
        | cons t0 ts =>
            rw [hsp] at ih
            cases ts with
            | nil =>
                show c :: t0 = c :: rest
                have ht : t0 = rest := ih
                rw [ht]
            | cons t1 ts2 =>
                show (c :: t0) ++ sep :: joinCh sep (t1 :: ts2) = c :: rest
                rw [List.cons_append]
                have hih : t0 ++ sep :: joinCh sep (t1 :: ts2) = rest := ih
                rw [hih]

theorem splitCh_append_sep (sep : Char) : ∀ l : List Char,
    splitCh sep (l ++ [sep]) = splitCh sep l ++ [[]] := by
  intro l
  induction l with
  | nil =>
      show splitCh sep [sep] = [[]] ++ [[]]
      simp [splitCh]
  | cons c rest ih =>
      show splitCh sep (c :: (rest ++ [sep])) = splitCh sep (c :: rest) ++ [[]]
      by_cases hc : c = sep
      · simp only [splitCh, if_pos hc]
        exact congrArg (List.cons []) ih
      · simp only [splitCh, if_neg hc]
        cases hsp : splitCh sep rest with
        | nil => exact absurd hsp (splitCh_ne_nil sep rest)
        | cons t0 ts =>
            rw [ih, hsp]
            rfl

theorem dropWhile_id_of_head (p : Char → Bool) (l : List Char)
    (h : (l.head?.map p).getD false = false) : l.dropWhile p = l := by
  cases l with
  | nil => rfl
  | cons c rest =>
      have hc : p c = false := by simpa using h
      simp [List.dropWhile_cons, hc]

theorem head_dropWhile (p : Char → Bool) : ∀ l : List Char,
    ((l.dropWhile p).head?.map p).getD false = false := by
  intro l
  induction l with
  | nil => rfl
  | cons c rest ih =>
      cases hpc : p c with
      | true => simpa [List.dropWhile_cons, hpc] using ih
      | false => simp [List.dropWhile_cons, hpc]

theorem getLast_dropWhile (p : Char → Bool) : ∀ l : List Char,
    l.dropWhile p = [] ∨ (l.dropWhile p).getLast? = l.getLast? := by
  intro l
  induction l with
  | nil => exact Or.inl rfl
  | cons c rest ih =>
      cases hpc : p c with
      | false =>
          right
          simp [List.dropWhile_cons, hpc]
      | true =>
          cases rest with
          | nil => left; simp [List.dropWhile_cons, hpc]
          | cons d rest2 =>
              rcases ih with h | h
              · left; simp [List.dropWhile_cons, hpc, h]
              · right
                simpa [List.dropWhile_cons, hpc, List.getLast?_cons_cons] using h

theorem jsTrimL_id (l : List Char)
    (hh : (l.head?.map isJsSpace).getD false = false)
    (hl : (l.getLast?.map isJsSpace).getD false = false) : jsTrimL l = l := by
  unfold jsTrimL
  rw [dropWhile_id_of_head isJsSpace l hh]
  rw [dropWhile_id_of_head isJsSpace l.reverse (by rwa [List.head?_reverse])]
  exact List.reverse_reverse l

theorem trim_head_prop (l : List Char) :
    ((jsTrimL l).head?.map isJsSpace).getD false = false := by
  unfold jsTrimL
  rw [List.head?_reverse]
  rcases getLast_dropWhile isJsSpace (l.dropWhile isJsSpace).reverse with h | h
  · simp [h]
  · rw [h, List.getLast?_reverse]
    exact head_dropWhile isJsSpace l

theorem trim_last_prop (l : List Char) :
    ((jsTrimL l).getLast?.map isJsSpace).getD false = false := by
  unfold jsTrimL
  rw [List.getLast?_reverse]
  exact head_dropWhile isJsSpace (l.dropWhile isJsSpace).reverse

theorem tokRepl_idem (c : Char) : tokRepl (tokRepl c) = tokRepl c := by
  unfold tokRepl
  by_cases h : isTokClass c = true
  · have hs : isTokClass ' ' = false := by decide
    simp [h, hs]
  · simp [h]

theorem tokenizeJS_eq (s : String) :
    tokenizeJS s = (splitCh ' ' ((jsTrimL s.data).map tokRepl)).map String.mk :=
  rfl

theorem getLastQ_map {α β : Type} (f : α → β) : ∀ l : List α,
    (l.map f).getLast? = l.getLast?.map f := by
  intro l
  induction l with
  | nil => rfl
  | cons a l2 ih =>
      cases l2 with
      | nil => rfl
      | cons b l3 => simpa [List.getLast?_cons_cons] using ih

theorem tokenize_round_trip (s : String)
    (h1 : (tokenizeJS s).head?.getD "" ≠ "")
    (h2 : (tokenizeJS s).getLast?.getD "" ≠ "") :
    tokenizeJS (joinSp (tokenizeJS s)) = tokenizeJS s := by
  have hjoin : joinSp (tokenizeJS s) =
      String.mk ((jsTrimL s.data).map tokRepl) := by
    rw [tokenizeJS_eq]
    unfold joinSp
    rw [List.map_map]
    have hcomp : String.data ∘ String.mk = id := rfl
    rw [hcomp, List.map_id, join_split]
  rw [hjoin]
  have htrim : jsTrimL ((jsTrimL s.data).map tokRepl) =
      (jsTrimL s.data).map tokRepl := by
    apply jsTrimL_id
    · cases hT : jsTrimL s.data with
      | nil => rfl
      | cons c T0 =>
          show isJsSpace (tokRepl c) = false
          have hc : isJsSpace c = false := by
            have hhp := trim_head_prop s.data
            rw [hT] at hhp
            simpa using hhp
          by_cases hcl : isTokClass c = true
          · exfalso
            apply h1
            rw [tokenizeJS_eq, hT]
            simp only [List.map_cons]
            have hsp : tokRepl c = ' ' := by unfold tokRepl; rw [if_pos hcl]
            rw [hsp]
            rfl
          · have hid : tokRepl c = c := by unfold tokRepl; rw [if_neg hcl]
            rw [hid]
            exact hc
    · cases hTl : (jsTrimL s.data).getLast? with
      | none =>
          have hnil : jsTrimL s.data = [] := by
            cases hT : jsTrimL s.data with
            | nil => rfl
            | cons c T0 =>
                rw [hT] at hTl
                rw [List.getLast?_eq_getLast (c :: T0) (by simp)] at hTl
                exact absurd hTl (by simp)
          rw [hnil]
          rfl
      | some cl =>
          rw [getLastQ_map, hTl]
          show isJsSpace (tokRepl cl) = false
          have hc : isJsSpace cl = false := by
            have hlp := trim_last_prop s.data
            rw [hTl] at hlp
            simpa using hlp
          by_cases hcl : isTokClass cl = true
          · exfalso
            apply h2
            have hne : jsTrimL s.data ≠ [] := by
              intro he
              rw [he] at hTl
              simp at hTl
            have hgl := List.getLast?_eq_getLast (jsTrimL s.data) hne
            rw [hTl] at hgl
            have hcl2 : cl = (jsTrimL s.data).getLast hne := Option.some.inj hgl
            have hTd : jsTrimL s.data = (jsTrimL s.data).dropLast ++ [cl] := by
              rw [hcl2]
              exact (List.dropLast_append_getLast hne).symm
            rw [tokenizeJS_eq, hTd, List.map_append]
            simp only [List.map_cons, List.map_nil]
            have hsp : tokRepl cl = ' ' := by unfold tokRepl; rw [if_pos hcl]
            rw [hsp, splitCh_append_sep, List.map_append]
            simp only [List.map_cons, List.map_nil]
            rw [List.getLast?_concat]
            rfl
          · have hid : tokRepl cl = cl := by unfold tokRepl; rw [if_neg hcl]
            rw [hid]
            exact hc
  have hmapf : ((jsTrimL s.data).map tokRepl).map tokRepl =
      (jsTrimL s.data).map tokRepl := by
    rw [List.map_map]
    have hff : tokRepl ∘ tokRepl = tokRepl := funext tokRepl_idem
    rw [hff]
  calc tokenizeJS (String.mk ((jsTrimL s.data).map tokRepl))
      = (splitCh ' '
          ((jsTrimL ((jsTrimL s.data).map tokRepl)).map tokRepl)).map
            String.mk := rfl
    _ = (splitCh ' ' (((jsTrimL s.data).map tokRepl).map tokRepl)).map
          String.mk := by rw [htrim]
    _ = (splitCh ' ' ((jsTrimL s.data).map tokRepl)).map String.mk := by
          rw [hmapf]
    _ = tokenizeJS s := (tokenizeJS_eq s).symm

/-- Claim C9, counterexample: neither normalizer is idempotent on every
input.  `tokenize(',a')` yields `['', 'a']` (the replaced leading comma
leaves an empty first piece), whose join `' a'` re-tokenizes to `['a']`;
and `toPlainText('.!a')` yields `'. a'`, which a second pass rewrites to
`' a'` (the dot–whitespace pair now matches `FORMAT_PLAIN_TEXT[0]`). -/
theorem claim_C9_counterexample :
    tokenizeJS (joinSp (tokenizeJS ",a")) ≠ tokenizeJS ",a" ∧
    toPlainTextJS (toPlainTextJS ".!a") ≠ toPlainTextJS ".!a" := by
  constructor
  · decide
  · decide

/-- Claim C9 (amended): both normalizers are pure functions of their input
(they are total functions here), but idempotence only holds conditionally.
`tokenize` is idempotent on every input whose first and last token are
non-empty — re-tokenizing the space-join of its output reproduces the
output.  `toPlainText` is the identity (hence idempotent) on plain text:
text with a capitalized, non-whitespace first character, none of the
stripped special characters, no lowercase–uppercase pair, no dot before
whitespace, no whitespace run, and no whitespace–dashes–whitespace
pattern. -/
theorem claim_C9_amended_idempotence :
    (∀ s : String,
        (tokenizeJS s).head?.getD "" ≠ "" →
        (tokenizeJS s).getLast?.getD "" ≠ "" →
        tokenizeJS (joinSp (tokenizeJS s)) = tokenizeJS s) ∧
    (∀ s : String, isPlainStr s = true →
        toPlainTextJS s = s ∧
        toPlainTextJS (toPlainTextJS s) = toPlainTextJS s) := by
  constructor
  · exact fun s => tokenize_round_trip s
  · intro s hp
    have hfix := toPlainText_fixed s hp
    constructor
    · exact hfix
    · rw [hfix]
      exact hfix

/-- Claim C9, witness: `'a,b'` tokenizes to `['a', 'b']` — non-empty first
and last tokens — and its join `'a b'` re-tokenizes to the same list; the
plain string `'Ab c'` is a fixed point of `toPlainText`, hence idempotent
there. -/
theorem claim_C9_witness :
    ((tokenizeJS "a,b").head?.getD "" ≠ "" ∧
      (tokenizeJS "a,b").getLast?.getD "" ≠ "" ∧
      tokenizeJS (joinSp (tokenizeJS "a,b")) = tokenizeJS "a,b") ∧
    (isPlainStr "Ab c" = true ∧
      toPlainTextJS (toPlainTextJS "Ab c") = toPlainTextJS "Ab c") :=
  ⟨⟨by decide, by decide,
    claim_C9_amended_idempotence.1 "a,b" (by decide) (by decide)⟩,
   by decide,
   (claim_C9_amended_idempotence.2 "Ab c" (by decide)).2⟩

end NTP
